import Mathlib

/-!
PermutationGenerator: combination enumeration and adjacent-swap alignment.

A shallow embedding of `src/Main.cpp`.

* C arrays are lists of integers (`List Int`); the element count that the
  code receives next to each array (`n`, `size`) and every loop index are
  natural numbers.  The requested combination size `r` stays an `Int`, as its
  sign matters.
* Console output is kept as data: the combinations printed by
  `GenerateCombinationsRecursive` and the sequence states printed after every
  swap of `FindMinimumSteps` are collected, in order, in a list.
* The counter `count` of the enumeration is a C++ `int`: it is an `Int` kept
  in the 32-bit range, and `(*count)++` wraps around (`wrapInt32`), as the
  compiled program does once more than `2^31 - 1` combinations are counted.
* The counter `steps` of `FindMinimumSteps` is a natural number.  It never
  exceeds `size * (size - 1) / 2`, so for every `size <= 65536` it stays below
  `2^31` and is the value of the `int` (`steps_fit_int`).
* Timing and the CSV log do not influence any value and are left out.
-/

namespace PermutationGenerator

/-! ## Function 1: combinations -/

/-- The mutable data of one enumeration: the scratch buffer `combination`,
the counter behind `count`, and the combinations printed so far. -/
structure CombinationRun where
  combination : List Int
  count : Int
  emitted : List (List Int)
deriving DecidableEq

/-- The value a 32-bit `int` holds when an arithmetic result is `x`: the
two's-complement representative of `x` in `-2^31 .. 2^31 - 1`. -/
def wrapInt32 (x : Int) : Int :=
  (x + 2147483648) % 4294967296 - 2147483648

/-- Modelled from the spec: `PrintCombination` of `sys_Utils.h`, which is not
among the sources.  The completed combination is handed over by value: the
first `r` cells of the buffer. -/
def PrintCombination (combination : List Int) (r : Int) : List Int :=
  combination.take r.toNat

mutual

/-- The function `GenerateCombinationsRecursive`: at `index == r` the counter
is incremented (`(*count)++` on an `int`) and the buffer printed; otherwise the
loop over the candidate positions runs. -/
def GenerateCombinationsRecursive (elements : List Int) (n : Nat) (r : Int)
    (index start : Nat) (st : CombinationRun) : CombinationRun :=
  if (index : Int) = r then
    { st with
      count := wrapInt32 (st.count + 1)
      emitted := st.emitted ++ [PrintCombination st.combination r] }
  else
    GenerateCombinationsRecursive.forLoop elements n r index start st
termination_by (n - start, 1)

/-- The loop `for (int i = start; i < n; i++)` of
`GenerateCombinationsRecursive`, entered at `i`: the candidate is written to
`combination[index]` and the enumeration recurses with `index + 1`, `i + 1`. -/
def GenerateCombinationsRecursive.forLoop (elements : List Int) (n : Nat) (r : Int)
    (index i : Nat) (st : CombinationRun) : CombinationRun :=
  if i < n then
    GenerateCombinationsRecursive.forLoop elements n r index (i + 1)
      (GenerateCombinationsRecursive elements n r (index + 1) (i + 1)
        { st with combination := st.combination.set index (elements.getD i 0) })
  else
    st
termination_by (n - i, 0)

end

/-- What a call of `GenerateCombinations` can end in besides a returned count.
`InvalidArgument` is the condition the specification names; the code has no
statement that raises it.  `BadArrayNewLength` is the C++ exception
`std::bad_array_new_length` thrown by `new int[r]` for a negative `r`. -/
inductive Condition where
  | InvalidArgument
  | BadArrayNewLength
deriving DecidableEq

/-- The function `GenerateCombinations`: allocates the buffer `new int[r]`,
sets `count = 0` and starts the enumeration at `index = 0`, `start = 0`.  The
code tests no argument.  For a negative `r` the allocation `new int[r]` does
not return: the array new-expression of C++11 and later (the source needs it
for `auto` and `std::chrono`) throws `std::bad_array_new_length`, which no
caller catches.  The cells of a fresh buffer are written before they are
printed; their initial content is taken as `0`. -/
def GenerateCombinations (elements : List Int) (n : Nat) (r : Int) :
    Except Condition CombinationRun :=
  if r < 0 then
    Except.error Condition.BadArrayNewLength
  else
    Except.ok (GenerateCombinationsRecursive elements n r 0 0
      { combination := List.replicate r.toNat 0, count := 0, emitted := [] })

/-- The selections of `k` entries of a list that keep the order of the list,
those through the head first: for a strictly increasing list of positions
these are the strictly increasing position tuples in lexicographic order. -/
def selections : Nat → List Nat → List (List Nat)
  | 0, _ => [[]]
  | _ + 1, [] => []
  | k + 1, a :: l => (selections k l).map (fun t => a :: t) ++ selections (k + 1) l

/-- The strictly increasing index tuples `i_1 < ... < i_r` over `{0 .. n-1}`. -/
def indexTuples (n r : Nat) : List (List Nat) :=
  selections r (List.range' 0 n)

/-- The values a tuple of positions selects from the source. -/
def selectAt (elements : List Int) (t : List Nat) : List Int :=
  t.map (fun i => elements.getD i 0)

/-- The counter after `k` increments `(*count)++` from the value `c`. -/
def countAfter (c : Int) : Nat → Int
  | 0 => c
  | k + 1 => wrapInt32 (countAfter c k + 1)

/-- What a part of the enumeration that runs through the index tuples `T` does
to a run entered with `index` cells placed: one increment of the counter and
one emission per tuple, the placed cells kept. -/
def Effect (elements : List Int) (index : Nat) (T : List (List Nat))
    (st res : CombinationRun) : Prop :=
  res.count = countAfter st.count T.length ∧
  res.emitted = st.emitted ++
    T.map (fun t => st.combination.take index ++ selectAt elements t) ∧
  res.combination.length = st.combination.length ∧
  res.combination.take index = st.combination.take index

/-! ## Function 2: adjacent swaps -/

/-- Modelled from the spec: `CopyArray` of `sys_Utils.h` (the array copy),
which is not among the sources: the first `size` cells of the source array. -/
def CopyArray (source : List Int) (size : Nat) : List Int :=
  source.take size

/-- Modelled from the spec: `ArraysEqual` of `sys_Utils.h` (the equality
check), which is not among the sources: the first `size` cells of the two
arrays are compared element by element. -/
def ArraysEqual (a b : List Int) (size : Nat) : Bool :=
  decide (a.take size = b.take size)

/-- Modelled from the spec: `Swap` of `sys_Utils.h` (the element swap), which
is not among the sources: the cells `p` and `q` of the array exchange their
values. -/
def Swap (a : List Int) (p q : Nat) : List Int :=
  (a.set p (a.getD q 0)).set q (a.getD p 0)

/-- The mutable data of `FindMinimumSteps`: the working copy `current`, the
counter `steps`, and the sequence states printed after each swap. -/
structure StepsRun where
  current : List Int
  steps : Nat
  trace : List (List Int)
deriving DecidableEq

/-- The search loop `for (int j = i + 1; j < size; j++)` entered at `j`: the
first position from `j` on whose cell equals `v`; `none` stands for
`targetPos == -1`. -/
def findTargetPos (current : List Int) (v : Int) (size : Nat) (j : Nat) : Option Nat :=
  if j < size then
    if current.getD j 0 = v then some j
    else findTargetPos current v size (j + 1)
  else
    none
termination_by size - j

/-- The loop `while (targetPos > i)`: the cell at `targetPos` is exchanged with
its left neighbour, `targetPos` decremented, `steps` incremented and the
sequence printed. -/
def swapLoop (i : Nat) (targetPos : Nat) (st : StepsRun) : StepsRun :=
  if targetPos > i then
    swapLoop i (targetPos - 1)
      { current := Swap st.current targetPos (targetPos - 1)
        steps := st.steps + 1
        trace := st.trace ++ [Swap st.current targetPos (targetPos - 1)] }
  else
    st
termination_by targetPos

/-- The loop `for (int i = 0; i < size; i++)` of `FindMinimumSteps`, entered at
`i`. -/
def FindMinimumSteps.forLoop (target : List Int) (size : Nat) (i : Nat)
    (st : StepsRun) : StepsRun :=
  if i < size then
    if st.current.getD i 0 = target.getD i 0 then
      FindMinimumSteps.forLoop target size (i + 1) st
    else
      match findTargetPos st.current (target.getD i 0) size (i + 1) with
      | some targetPos =>
        FindMinimumSteps.forLoop target size (i + 1) (swapLoop i targetPos st)
      | none => FindMinimumSteps.forLoop target size (i + 1) st
  else
    st
termination_by size - i

/-- What `FindMinimumSteps` gives: the returned `steps`, the printed trace, the
working sequence when the loop over the positions has finished, and whether
`ArraysEqual(current, target, size)` held (the success message). -/
structure StepsResult where
  steps : Nat
  trace : List (List Int)
  final : List Int
  reachedTarget : Bool
deriving DecidableEq

/-- The function `FindMinimumSteps`: copies `initial` to `current`, runs the loop over the
positions from `steps = 0`, compares `current` with `target` and returns
`steps`. -/
def FindMinimumSteps (initial target : List Int) (size : Nat) : StepsResult :=
  let st := FindMinimumSteps.forLoop target size 0
    { current := CopyArray initial size, steps := 0, trace := [] }
  { steps := st.steps
    trace := st.trace
    final := st.current
    reachedTarget := ArraysEqual st.current target size }

/-- One sequence arises from another by exchanging the cells of one pair of
adjacent positions. -/
def AdjacentSwap (a b : List Int) : Prop :=
  ∃ p, p + 1 < a.length ∧ b = Swap a (p + 1) p

/-- The relation `SwapsTo k a b`: some `k` adjacent swaps, one after the other, turn `a`
into `b`. -/
inductive SwapsTo : Nat → List Int → List Int → Prop where
  | done (a : List Int) : SwapsTo 0 a a
  | step {k : Nat} {a b c : List Int} :
      AdjacentSwap a b → SwapsTo k b c → SwapsTo (k + 1) a c

/-- The cost of aligning `a` with a target from left to right: every target
value is fetched from its leftmost remaining occurrence. -/
def alignCost : List Int → List Int → Nat
  | _, [] => 0
  | a, y :: t => a.indexOf y + alignCost (a.erase y) t

/-- The body of the loop `for (int i = 0; i < size; i++)` of
`FindMinimumSteps` at position `i`: nothing changes when `current[i]` already
is `target[i]` or when the search finds no position; otherwise the found cell
is moved down to `i`. -/
def FindMinimumSteps.forBody (target : List Int) (size : Nat) (i : Nat)
    (st : StepsRun) : StepsRun :=
  if st.current.getD i 0 = target.getD i 0 then
    st
  else
    match findTargetPos st.current (target.getD i 0) size (i + 1) with
    | some targetPos => swapLoop i targetPos st
    | none => st

/-- The data of `FindMinimumSteps` when the positions `0 .. k-1` have been
processed: the loop body run at these positions, one after the other. -/
def FindMinimumSteps.afterPositions (target : List Int) (size : Nat) :
    Nat → StepsRun → StepsRun
  | 0, st => st
  | k + 1, st =>
    FindMinimumSteps.forBody target size k
      (FindMinimumSteps.afterPositions target size k st)

theorem selections_zero (l : List Nat) : selections 0 l = [[]] := by
  cases l <;> rfl

theorem selections_length (k : Nat) (l : List Nat) :
    (selections k l).length = Nat.choose l.length k := by
  induction l generalizing k with
  | nil => cases k <;> simp [selections]
  | cons a l ih =>
    cases k with
    | zero => simp [selections]
    | succ k =>
      simp [selections, ih, Nat.choose_succ_succ]

theorem mem_selections_length {k : Nat} {l t : List Nat} (h : t ∈ selections k l) :
    t.length = k := by
  induction l generalizing k t with
  | nil =>
    cases k with
    | zero => simp [selections] at h; simp [h]
    | succ k => simp [selections] at h
  | cons a l ih =>
    cases k with
    | zero => simp [selections] at h; simp [h]
    | succ k =>
      simp only [selections, List.mem_append, List.mem_map] at h
      rcases h with ⟨s, hs, rfl⟩ | h
      · simp [ih hs]
      · exact ih h

theorem mem_selections_sublist {k : Nat} {l t : List Nat} (h : t ∈ selections k l) :
    t.Sublist l := by
  induction l generalizing k t with
  | nil =>
    cases k with
    | zero => simp [selections] at h; simp [h]
    | succ k => simp [selections] at h
  | cons a l ih =>
    cases k with
    | zero => simp [selections] at h; simp [h]
    | succ k =>
      simp only [selections, List.mem_append, List.mem_map] at h
      rcases h with ⟨s, hs, rfl⟩ | h
      · exact (ih hs).cons₂ a
      · exact (ih h).cons a

theorem sublist_mem_selections {l t : List Nat} (h : t.Sublist l) :
    t ∈ selections t.length l := by
  induction h with
  | slnil => simp [selections]
  | @cons t l a _ ih =>
    cases t with
    | nil => simp [selections_zero]
    | cons b t =>
      simp only [List.length_cons, selections, List.mem_append]
      exact Or.inr ih
  | @cons₂ t l a _ ih =>
    simp only [List.length_cons, selections, List.mem_append, List.mem_map]
    exact Or.inl ⟨t, ih, rfl⟩

theorem selections_lex {k : Nat} {l : List Nat} (hl : l.Pairwise (· < ·)) :
    (selections k l).Pairwise (List.Lex (· < ·)) := by
  induction l generalizing k with
  | nil => cases k <;> simp [selections]
  | cons a l ih =>
    cases k with
    | zero => simp [selections]
    | succ k =>
      rw [List.pairwise_cons] at hl
      simp only [selections]
      rw [List.pairwise_append]
      refine ⟨?_, ih hl.2, ?_⟩
      · rw [List.pairwise_map]
        exact (ih hl.2).imp (fun h => List.Lex.cons h)
      · intro x hx y hy
        rw [List.mem_map] at hx
        obtain ⟨s, _, rfl⟩ := hx
        have hlen := mem_selections_length hy
        have hsub := mem_selections_sublist hy
        cases y with
        | nil => simp at hlen
        | cons b y =>
          exact List.Lex.rel (hl.1 b (hsub.subset (List.mem_cons_self b y)))

theorem lex_lt_irrefl (t : List Nat) : ¬ List.Lex (· < ·) t t := by
  induction t with
  | nil => intro h; cases h
  | cons a t ih =>
    intro h
    cases h with
    | cons h => exact ih h
    | rel h => exact Nat.lt_irrefl _ h

theorem selections_nodup {k : Nat} {l : List Nat} (hl : l.Pairwise (· < ·)) :
    (selections k l).Nodup := by
  refine (selections_lex hl).imp ?_
  intro s t h e
  subst e
  exact lex_lt_irrefl _ h

theorem range'_pairwise_lt (s m : Nat) : (List.range' s m).Pairwise (· < ·) := by
  induction m generalizing s with
  | zero => simp
  | succ m ih =>
    rw [List.range'_succ, List.pairwise_cons]
    refine ⟨?_, ih _⟩
    intro b hb
    rw [List.mem_range'_1] at hb
    omega

/-! ## The enumeration as a list of index tuples -/

theorem take_set_self (l : List Int) (i : Nat) (e : Int) :
    (l.set i e).take i = l.take i := by
  rw [List.set_take]
  exact List.set_eq_of_length_le (by simp)

theorem take_set_succ (l : List Int) (i : Nat) (e : Int) (h : i < l.length) :
    (l.set i e).take (i + 1) = l.take i ++ [e] := by
  rw [List.take_succ, take_set_self]
  simp [h]

theorem take_of_take_succ {l l' : List Int} {i : Nat}
    (h : l.take (i + 1) = l'.take (i + 1)) : l.take i = l'.take i := by
  have := congrArg (List.take i) h
  simpa [List.take_take] using this

theorem wrapInt32_of_fits (x : Int) (h1 : -2147483648 ≤ x) (h2 : x ≤ 2147483647) :
    wrapInt32 x = x := by
  unfold wrapInt32; omega

theorem wrapInt32_succ (x : Int) : wrapInt32 (wrapInt32 x + 1) = wrapInt32 (x + 1) := by
  unfold wrapInt32; omega

theorem countAfter_add (c : Int) (a b : Nat) :
    countAfter c (a + b) = countAfter (countAfter c a) b := by
  induction b with
  | zero => rfl
  | succ b ih => rw [← Nat.add_assoc]; simp only [countAfter]; rw [ih]

theorem countAfter_eq_wrap (c : Int) (k : Nat) :
    countAfter c (k + 1) = wrapInt32 (c + (k + 1 : Nat)) := by
  induction k with
  | zero => simp [countAfter]
  | succ k ih =>
    rw [countAfter, ih, wrapInt32_succ]
    congr 1
    push_cast
    ring

theorem countAfter_of_fits (c : Int) (k : Nat) (h1 : -2147483648 ≤ c)
    (h2 : c + k ≤ 2147483647) : countAfter c k = c + k := by
  cases k with
  | zero => simp [countAfter]
  | succ k =>
    rw [countAfter_eq_wrap]
    exact wrapInt32_of_fits _ (by omega) h2

theorem choose_34_17 : Nat.choose 34 17 = 2333606220 := by
  rw [Nat.choose_eq_factorial_div_factorial (by norm_num)]
  norm_num [Nat.factorial]

theorem recursive_effect_of_forLoop (elements : List Int) (n : Nat) (r : Int)
    (index start : Nat) (st : CombinationRun) (hir : (index : Int) ≤ r)
    (hbuf : st.combination.length = r.toNat)
    (hloop : (index : Int) < r →
      Effect elements index (selections (r.toNat - index) (List.range' start (n - start))) st
        (GenerateCombinationsRecursive.forLoop elements n r index start st)) :
    Effect elements index (selections (r.toNat - index) (List.range' start (n - start))) st
      (GenerateCombinationsRecursive elements n r index start st) := by
  rw [GenerateCombinationsRecursive]
  by_cases h : (index : Int) = r
  · have hk : r.toNat - index = 0 := by omega
    have hidx : r.toNat = index := by omega
    simp only [if_pos h, hk, selections_zero]
    refine ⟨rfl, ?_, rfl, rfl⟩
    simp [PrintCombination, selectAt, hidx]
  · rw [if_neg h]
    exact hloop (lt_of_le_of_ne hir h)

theorem forLoop_effect (elements : List Int) (n : Nat) (r : Int) (d : Nat) :
    ∀ (index i : Nat) (st : CombinationRun), n - i = d → (index : Int) < r →
      st.combination.length = r.toNat →
      Effect elements index (selections (r.toNat - index) (List.range' i (n - i))) st
        (GenerateCombinationsRecursive.forLoop elements n r index i st) := by
  induction d using Nat.strong_induction_on with
  | _ d ih =>
    intro index i st hd hir hbuf
    rw [GenerateCombinationsRecursive.forLoop]
    by_cases hin : i < n
    · rw [if_pos hin]
      obtain ⟨k, hk⟩ : ∃ k, r.toNat - index = k + 1 := ⟨r.toNat - index - 1, by omega⟩
      have hidx : index < st.combination.length := by omega
      have hrange : List.range' i (n - i) = i :: List.range' (i + 1) (n - (i + 1)) := by
        rw [show n - i = (n - (i + 1)) + 1 by omega, List.range'_succ]
      have hk1 : r.toNat - (index + 1) = k := by omega
      have h1 := recursive_effect_of_forLoop elements n r (index + 1) (i + 1)
        { st with combination := st.combination.set index (elements.getD i 0) }
        (by omega) (by simpa using hbuf)
        (fun hlt => ih (n - (i + 1)) (by omega) (index + 1) (i + 1) _ rfl hlt
          (by simpa using hbuf))
      have h2 := ih (n - (i + 1)) (by omega) index (i + 1)
        (GenerateCombinationsRecursive elements n r (index + 1) (i + 1)
          { st with combination := st.combination.set index (elements.getD i 0) })
        rfl hir (by rw [h1.2.2.1]; simpa using hbuf)
      rw [hk1] at h1
      rw [hk] at h2
      obtain ⟨c1, e1, l1, t1⟩ := h1
      obtain ⟨c2, e2, l2, t2⟩ := h2
      simp only [take_set_succ _ _ _ hidx] at e1 t1
      have t1' := take_of_take_succ (t1.trans (take_set_succ _ _ _ hidx).symm)
      rw [take_set_self] at t1'
      rw [hk, hrange]
      refine ⟨?_, ?_, ?_, ?_⟩
      · rw [c2, c1, ← countAfter_add]; simp [selections]
      · rw [e2, e1, t1']
        simp [selections, selectAt, List.map_map, Function.comp_def]
      · rw [l2, l1]; simp
      · rw [t2, t1']
    · rw [if_neg hin]
      obtain ⟨k, hk⟩ : ∃ k, r.toNat - index = k + 1 := ⟨r.toNat - index - 1, by omega⟩
      have h0 : n - i = 0 := by omega
      rw [hk, h0]
      simp [Effect, selections, countAfter]

theorem recursive_effect (elements : List Int) (n : Nat) (r : Int)
    (index start : Nat) (st : CombinationRun) (hir : (index : Int) ≤ r)
    (hbuf : st.combination.length = r.toNat) :
    Effect elements index (selections (r.toNat - index) (List.range' start (n - start))) st
      (GenerateCombinationsRecursive elements n r index start st) :=
  recursive_effect_of_forLoop elements n r index start st hir hbuf
    (fun hlt => forLoop_effect elements n r (n - start) index start st rfl hlt hbuf)

theorem selections_eq_nil_of_length_lt {k : Nat} {l : List Nat} (h : l.length < k) :
    selections k l = [] := by
  apply List.eq_nil_of_length_eq_zero
  rw [selections_length, Nat.choose_eq_zero_of_lt h]

theorem mem_indexTuples (n k : Nat) (t : List Nat) :
    t ∈ indexTuples n k ↔ t.length = k ∧ t.Pairwise (· < ·) ∧ ∀ i ∈ t, i < n := by
  unfold indexTuples
  constructor
  · intro h
    have hsub := mem_selections_sublist h
    refine ⟨mem_selections_length h, List.Pairwise.sublist hsub (range'_pairwise_lt 0 n), ?_⟩
    intro i hi
    have := hsub.subset hi
    rw [List.mem_range'_1] at this
    omega
  · rintro ⟨hlen, hsorted, hlt⟩
    have hnodup : t.Nodup := hsorted.imp (fun h => Nat.ne_of_lt h)
    have hsubset : t ⊆ List.range' 0 n := by
      intro i hi
      rw [List.mem_range'_1]
      exact ⟨Nat.zero_le _, by simpa using hlt i hi⟩
    have hsub : t.Sublist (List.range' 0 n) :=
      List.sublist_of_subperm_of_sorted (List.subperm_of_subset hnodup hsubset)
        hsorted (range'_pairwise_lt 0 n)
    rw [← hlen]
    exact sublist_mem_selections hsub

theorem selectAt_injOn (elements : List Int) (hd : elements.Nodup) :
    ∀ (s t : List Nat), (∀ i ∈ s, i < elements.length) → (∀ i ∈ t, i < elements.length) →
      selectAt elements s = selectAt elements t → s = t := by
  intro s
  induction s with
  | nil =>
    intro t _ _ h
    cases t with
    | nil => rfl
    | cons b t => simp [selectAt] at h
  | cons a s ih =>
    intro t hs ht h
    cases t with
    | nil => simp [selectAt] at h
    | cons b t =>
      have ha : a < elements.length := hs a (List.mem_cons_self a s)
      have hb : b < elements.length := ht b (List.mem_cons_self b t)
      simp only [selectAt, List.map_cons, List.cons.injEq] at h
      rw [List.getD_eq_getElem _ _ ha, List.getD_eq_getElem _ _ hb,
        hd.getElem_inj_iff] at h
      have hrest := ih t (fun i hi => hs i (List.mem_cons_of_mem a hi))
        (fun i hi => ht i (List.mem_cons_of_mem b hi)) h.2
      rw [h.1, hrest]

theorem GenerateCombinations_run (elements : List Int) (n : Nat) (r : Int) (h0 : 0 ≤ r) :
    ∃ run, GenerateCombinations elements n r = Except.ok run ∧
      run.count = countAfter 0 (indexTuples n r.toNat).length ∧
      run.emitted = (indexTuples n r.toNat).map (selectAt elements) := by
  have hE := recursive_effect elements n r 0 0
    { combination := List.replicate r.toNat 0, count := 0, emitted := [] }
    (by simpa using h0) (by simp)
  refine ⟨_, by rw [GenerateCombinations, if_neg (not_lt.mpr h0)], ?_, ?_⟩
  · simpa [indexTuples] using hE.1
  · simpa [indexTuples] using hE.2.1

/-! ## Lemmas on adjacent swaps -/

theorem Swap_length (a : List Int) (p q : Nat) : (Swap a p q).length = a.length := by
  simp [Swap]

theorem Swap_append_cons_cons (L : List Int) (x z : Int) (R : List Int) :
    Swap (L ++ x :: z :: R) (L.length + 1) L.length = L ++ z :: x :: R := by
  have h1 : (L ++ x :: z :: R).getD L.length 0 = x := by
    rw [List.getD_append_right _ _ _ _ (Nat.le_refl _)]; simp
  have h2 : (L ++ x :: z :: R).getD (L.length + 1) 0 = z := by
    rw [List.getD_append_right _ _ _ _ (Nat.le_succ _)]; simp
  rw [Swap, h1, h2, List.set_append_right _ _ (Nat.le_succ _),
    List.set_append_right _ _ (Nat.le_refl _)]
  simp

theorem exists_split_at {a : List Int} {p : Nat} (h : p + 1 < a.length) :
    ∃ L x z R, a = L ++ x :: z :: R ∧ L.length = p := by
  refine ⟨a.take p, a[p], a[p + 1], a.drop (p + 2), ?_, ?_⟩
  · have h1 : a.drop p = a[p] :: a.drop (p + 1) := List.drop_eq_getElem_cons (by omega)
    have h2 : a.drop (p + 1) = a[p + 1] :: a.drop (p + 2) := List.drop_eq_getElem_cons h
    rw [← h2, ← h1, List.take_append_drop]
  · rw [List.length_take]; omega

theorem AdjacentSwap_iff (a b : List Int) :
    AdjacentSwap a b ↔ ∃ L x z R, a = L ++ x :: z :: R ∧ b = L ++ z :: x :: R := by
  constructor
  · rintro ⟨p, hp, rfl⟩
    obtain ⟨L, x, z, R, rfl, rfl⟩ := exists_split_at hp
    exact ⟨L, x, z, R, rfl, Swap_append_cons_cons L x z R⟩
  · rintro ⟨L, x, z, R, rfl, rfl⟩
    exact ⟨L.length, by simp, (Swap_append_cons_cons L x z R).symm⟩

theorem AdjacentSwap_perm {a b : List Int} (h : AdjacentSwap a b) : b.Perm a := by
  obtain ⟨L, x, z, R, rfl, rfl⟩ := (AdjacentSwap_iff a b).mp h
  exact List.Perm.append_left L (List.Perm.swap x z R)

theorem findTargetPos_some (current : List Int) (v : Int) (size : Nat) (d : Nat) :
    ∀ (j p : Nat), size - j = d → findTargetPos current v size j = some p →
      j ≤ p ∧ p < size ∧ current.getD p 0 = v ∧
        ∀ q, j ≤ q → q < p → current.getD q 0 ≠ v := by
  induction d with
  | zero =>
    intro j p hd h
    rw [findTargetPos, if_neg (by omega)] at h
    cases h
  | succ d ih =>
    intro j p hd h
    rw [findTargetPos, if_pos (by omega)] at h
    by_cases hv : current.getD j 0 = v
    · rw [if_pos hv] at h
      cases h
      exact ⟨Nat.le_refl _, by omega, hv, fun q h1 h2 => by omega⟩
    · rw [if_neg hv] at h
      obtain ⟨h1, h2, h3, h4⟩ := ih (j + 1) p (by omega) h
      refine ⟨by omega, h2, h3, ?_⟩
      intro q hq1 hq2
      by_cases hqj : q = j
      · rw [hqj]; exact hv
      · exact h4 q (by omega) hq2

theorem findTargetPos_none (current : List Int) (v : Int) (size : Nat) (d : Nat) :
    ∀ (j : Nat), size - j = d → findTargetPos current v size j = none →
      ∀ q, j ≤ q → q < size → current.getD q 0 ≠ v := by
  induction d with
  | zero =>
    intro j hd _ q h1 h2
    omega
  | succ d ih =>
    intro j hd h
    rw [findTargetPos, if_pos (by omega)] at h
    by_cases hv : current.getD j 0 = v
    · rw [if_pos hv] at h
      cases h
    · rw [if_neg hv] at h
      intro q hq1 hq2
      by_cases hqj : q = j
      · rw [hqj]; exact hv
      · exact ih (j + 1) (by omega) h q (by omega) hq2

theorem findTargetPos_eq_some {current : List Int} {v : Int} {size j p : Nat}
    (hjp : j ≤ p) (hp : p < size) (hv : current.getD p 0 = v)
    (hfirst : ∀ q, j ≤ q → q < p → current.getD q 0 ≠ v) :
    findTargetPos current v size j = some p := by
  cases h : findTargetPos current v size j with
  | none => exact absurd hv (findTargetPos_none current v size _ j rfl h p hjp hp)
  | some p' =>
    obtain ⟨h1, _, h3, h4⟩ := findTargetPos_some current v size _ j p' rfl h
    rcases Nat.lt_trichotomy p' p with hlt | heq | hgt
    · exact absurd h3 (hfirst p' h1 hlt)
    · rw [heq]
    · exact absurd hv (h4 p hjp hgt)

theorem chain_append_getLastD {R : List Int → List Int → Prop} :
    ∀ (l₁ l₂ : List (List Int)) (a : List Int), List.Chain R a l₁ →
      List.Chain R (l₁.getLastD a) l₂ → List.Chain R a (l₁ ++ l₂) := by
  intro l₁
  induction l₁ with
  | nil => intro l₂ a _ h; exact h
  | cons b l ih =>
    intro l₂ a h1 h2
    rw [List.chain_cons] at h1
    rw [List.getLastD_cons] at h2
    exact List.Chain.cons h1.1 (ih l₂ b h1.2 h2)

theorem getLastD_append' (l₁ l₂ : List (List Int)) (a : List Int) :
    (l₁ ++ l₂).getLastD a = l₂.getLastD (l₁.getLastD a) := by
  induction l₁ generalizing a with
  | nil => rfl
  | cons b l ih => rw [List.cons_append, List.getLastD_cons, List.getLastD_cons, ih]

theorem swapLoop_effect (pre : List Int) (v : Int) (A : List Int) :
    ∀ (B : List Int) (st : StepsRun), st.current = pre ++ (A ++ v :: B) → v ∉ A →
      (swapLoop pre.length (pre.length + A.length) st).current = pre ++ v :: (A ++ B) ∧
      (swapLoop pre.length (pre.length + A.length) st).steps = st.steps + A.length ∧
      ∃ tr, (swapLoop pre.length (pre.length + A.length) st).trace = st.trace ++ tr ∧
        tr.length = A.length ∧
        List.Chain (fun a b => AdjacentSwap a b ∧ a ≠ b) st.current tr ∧
        tr.getLastD st.current = pre ++ v :: (A ++ B) := by
  induction A using List.reverseRecOn with
  | nil =>
    intro B st h _
    rw [swapLoop, if_neg (by simp)]
    refine ⟨by simpa using h, by simp, [], by simp, rfl, List.Chain.nil, ?_⟩
    rw [List.getLastD_nil]
    simpa using h
  | append_singleton A a ih =>
    intro B st h hv
    rw [swapLoop, if_pos (by simp)]
    have hav : a ≠ v := by
      intro e; apply hv; simp [e]
    have hvA : v ∉ A := by
      intro e; apply hv; simp [e]
    have hcur : st.current = (pre ++ A) ++ a :: v :: B := by simp [h]
    have hpos : pre.length + (A ++ [a]).length = (pre ++ A).length + 1 := by
      simp [Nat.add_assoc]
    have hswap : Swap st.current (pre.length + (A ++ [a]).length)
        (pre.length + (A ++ [a]).length - 1) = pre ++ (A ++ v :: a :: B) := by
      rw [hcur, hpos, Nat.add_sub_cancel, Swap_append_cons_cons]
      simp
    have hidx : pre.length + (A ++ [a]).length - 1 = pre.length + A.length := by
      simp
    have hR : AdjacentSwap st.current (pre ++ (A ++ v :: a :: B)) ∧
        st.current ≠ pre ++ (A ++ v :: a :: B) := by
      constructor
      · exact (AdjacentSwap_iff _ _).mpr ⟨pre ++ A, a, v, B, hcur, by simp⟩
      · rw [h]
        intro e
        have e1 := List.append_cancel_left e
        rw [List.append_assoc] at e1
        have e2 := List.append_cancel_left e1
        simp only [List.singleton_append, List.cons.injEq] at e2
        exact hav e2.1
    rw [hswap, hidx]
    obtain ⟨h1, h2, tr, h3, h4, h5, h6⟩ := ih (a :: B)
      { current := pre ++ (A ++ v :: a :: B), steps := st.steps + 1,
        trace := st.trace ++ [pre ++ (A ++ v :: a :: B)] } rfl hvA
    refine ⟨by simpa using h1, ?_, (pre ++ (A ++ v :: a :: B)) :: tr, ?_, ?_, ?_, ?_⟩
    · rw [h2]; simp; omega
    · rw [h3]; simp
    · simp [h4]
    · exact List.Chain.cons hR h5
    · rw [List.getLastD_cons]
      simpa using h6

theorem split_of_first {current : List Int} {v : Int} {i p : Nat} (hip : i ≤ p)
    (hp : p < current.length) (hv : current.getD p 0 = v)
    (hfirst : ∀ q, i ≤ q → q < p → current.getD q 0 ≠ v) :
    ∃ pre A B, current = pre ++ (A ++ v :: B) ∧ pre.length = i ∧ A.length = p - i ∧
      v ∉ A := by
  refine ⟨current.take i, (current.drop i).take (p - i), current.drop (p + 1), ?_, ?_, ?_, ?_⟩
  · rw [List.getD_eq_getElem _ _ hp] at hv
    rw [← List.append_assoc, ← List.take_add, ← hv, ← List.drop_eq_getElem_cons hp,
      show i + (p - i) = p by omega, List.take_append_drop]
  · rw [List.length_take]; omega
  · rw [List.length_take, List.length_drop]; omega
  · intro hmem
    obtain ⟨k, hk, hk'⟩ := List.mem_iff_getElem.mp hmem
    have hk2 : k < p - i := by
      rw [List.length_take] at hk; omega
    apply hfirst (i + k) (by omega) (by omega)
    rw [List.getD_eq_getElem _ _ (by omega)]
    rw [← hk']
    simp

theorem forLoop_trace (target : List Int) (size : Nat) (d : Nat) :
    ∀ (i : Nat) (st : StepsRun), size - i = d → st.current.length = size →
      ∃ tr, (FindMinimumSteps.forLoop target size i st).trace = st.trace ++ tr ∧
        (FindMinimumSteps.forLoop target size i st).steps = st.steps + tr.length ∧
        List.Chain (fun a b => AdjacentSwap a b ∧ a ≠ b) st.current tr ∧
        tr.getLastD st.current = (FindMinimumSteps.forLoop target size i st).current := by
  induction d with
  | zero =>
    intro i st hd _
    rw [FindMinimumSteps.forLoop, if_neg (by omega)]
    exact ⟨[], by simp, by simp, List.Chain.nil, rfl⟩
  | succ d ih =>
    intro i st hd hlen
    rw [FindMinimumSteps.forLoop, if_pos (by omega)]
    by_cases heq : st.current.getD i 0 = target.getD i 0
    · rw [if_pos heq]
      exact ih (i + 1) st (by omega) hlen
    · rw [if_neg heq]
      cases hfind : findTargetPos st.current (target.getD i 0) size (i + 1) with
      | none =>
        dsimp only
        exact ih (i + 1) st (by omega) hlen
      | some p =>
        dsimp only
        obtain ⟨h1, h2, h3, h4⟩ := findTargetPos_some _ _ _ _ (i + 1) p rfl hfind
        have hfirst : ∀ q, i ≤ q → q < p → st.current.getD q 0 ≠ target.getD i 0 := by
          intro q hq1 hq2
          by_cases hqi : q = i
          · rw [hqi]; exact heq
          · exact h4 q (by omega) hq2
        obtain ⟨pre, A, B, hcur, hpre, hA, hvA⟩ :=
          split_of_first (by omega) (by omega) h3 hfirst
        have hp : i + A.length = p := by omega
        obtain ⟨e1, e2, tr1, e3, e4, e5, e6⟩ := swapLoop_effect pre _ A B st hcur hvA
        rw [hpre, hp] at e1 e2 e3
        have hlen' : (swapLoop i p st).current.length = size := by
          rw [e1, ← hlen, hcur]; simp; omega
        obtain ⟨tr2, f1, f2, f3, f4⟩ := ih (i + 1) (swapLoop i p st) (by omega) hlen'
        refine ⟨tr1 ++ tr2, ?_, ?_, ?_, ?_⟩
        · rw [f1, e3, List.append_assoc]
        · rw [f2, e2, List.length_append, e4]; omega
        · refine chain_append_getLastD tr1 tr2 _ e5 ?_
          rw [e6, ← e1]; exact f3
        · rw [getLastD_append', e6, ← e1]; exact f4

theorem forLoop_aligned (tsuf : List Int) :
    ∀ (pre tpre suf : List Int) (st : StepsRun), pre.length = tpre.length →
      suf.Perm tsuf → st.current = pre ++ suf →
      (FindMinimumSteps.forLoop (tpre ++ tsuf) (pre.length + suf.length) pre.length st).current
        = pre ++ tsuf ∧
      (FindMinimumSteps.forLoop (tpre ++ tsuf) (pre.length + suf.length) pre.length st).steps
        = st.steps + alignCost suf tsuf := by
  induction tsuf with
  | nil =>
    intro pre tpre suf st _ hperm hcur
    have hnil : suf = [] := hperm.eq_nil
    subst hnil
    rw [FindMinimumSteps.forLoop, if_neg (by simp)]
    simp [hcur, alignCost]
  | cons y t ih =>
    intro pre tpre suf st hlen hperm hcur
    have hy : y ∈ suf := hperm.symm.subset (List.mem_cons_self y t)
    obtain ⟨A, B, hA, hsuf, herase⟩ := List.exists_erase_eq hy
    have hpermAB : (A ++ B).Perm t := by
      rw [← herase]
      exact (List.cons_perm_iff_perm_erase.mp hperm.symm).2.symm
    have hcost : alignCost suf (y :: t) = A.length + alignCost (A ++ B) t := by
      simp only [alignCost, herase]
      rw [hsuf, List.indexOf_append_of_not_mem hA, List.indexOf_cons_self]
      simp
    have htarget : (tpre ++ y :: t).getD pre.length 0 = y := by
      rw [hlen, List.getD_append_right _ _ _ _ (Nat.le_refl _)]; simp
    have key : ∀ st' : StepsRun, st'.current = pre ++ y :: (A ++ B) →
        (FindMinimumSteps.forLoop (tpre ++ y :: t) (pre.length + suf.length)
            (pre.length + 1) st').current = pre ++ y :: t ∧
        (FindMinimumSteps.forLoop (tpre ++ y :: t) (pre.length + suf.length)
            (pre.length + 1) st').steps = st'.steps + alignCost (A ++ B) t := by
      intro st' h
      have e1 : pre.length + suf.length = (pre ++ [y]).length + (A ++ B).length := by
        rw [hsuf]; simp; omega
      have e2 : pre.length + 1 = (pre ++ [y]).length := by simp
      have e3 : tpre ++ y :: t = (tpre ++ [y]) ++ t := by simp
      have e4 : pre ++ y :: (A ++ B) = (pre ++ [y]) ++ (A ++ B) := by simp
      have e5 : pre ++ y :: t = (pre ++ [y]) ++ t := by simp
      rw [e1, e2, e3, e5]
      exact ih (pre ++ [y]) (tpre ++ [y]) (A ++ B) st' (by simp [hlen]) hpermAB
        (h.trans e4)
    rw [FindMinimumSteps.forLoop, if_pos (by rw [hsuf]; simp), htarget, hcost]
    cases A with
    | nil =>
      have hc0 : st.current.getD pre.length 0 = y := by
        rw [hcur, hsuf, List.getD_append_right _ _ _ _ (Nat.le_refl _)]; simp
      rw [if_pos hc0]
      have := key st (by rw [hcur, hsuf]; simp)
      simpa using this
    | cons x A' =>
      have hxy : x ≠ y := by
        intro e; apply hA; simp [e]
      have hc0 : st.current.getD pre.length 0 = x := by
        rw [hcur, hsuf, List.getD_append_right _ _ _ _ (Nat.le_refl _)]; simp
      rw [if_neg (by rw [hc0]; exact hxy)]
      have hfind : findTargetPos st.current y (pre.length + suf.length) (pre.length + 1)
          = some (pre.length + (x :: A').length) := by
        apply findTargetPos_eq_some
        · simp
        · rw [hsuf]; simp
        · rw [hcur, hsuf, List.getD_append_right _ _ _ _ (Nat.le_add_right _ _),
            Nat.add_sub_cancel_left, List.getD_append_right _ _ _ _ (Nat.le_refl _)]
          simp
        · intro q hq1 hq2 hq3
          apply hA
          rw [hcur, hsuf, List.getD_append_right _ _ _ _ (by omega),
            List.getD_append _ _ _ _ (by omega),
            List.getD_eq_getElem _ _ (by omega)] at hq3
          rw [← hq3]
          exact List.getElem_mem _
      rw [hfind]
      dsimp only
      obtain ⟨h1, h2, _⟩ := swapLoop_effect pre y (x :: A') B st (by rw [hcur, hsuf]) hA
      obtain ⟨k1, k2⟩ := key (swapLoop pre.length (pre.length + (x :: A').length) st) h1
      refine ⟨k1, ?_⟩
      rw [k2, h2]; omega

theorem swapsTo_of_chain :
    ∀ (tr : List (List Int)) (a : List Int),
      List.Chain (fun a b => AdjacentSwap a b ∧ a ≠ b) a tr →
      SwapsTo tr.length a (tr.getLastD a) := by
  intro tr
  induction tr with
  | nil => intro a _; exact SwapsTo.done a
  | cons b tr ih =>
    intro a h
    rw [List.chain_cons] at h
    rw [List.getLastD_cons]
    exact SwapsTo.step h.1.1 (ih b h.2)

theorem SwapsTo_perm {k : Nat} {a b : List Int} (h : SwapsTo k a b) : b.Perm a := by
  induction h with
  | done a => exact List.Perm.refl a
  | step hab _ ih => exact ih.trans (AdjacentSwap_perm hab)

theorem FindMinimumSteps_run (initial target : List Int) (size : Nat)
    (hi : initial.length = size) :
    (FindMinimumSteps initial target size).trace.length
      = (FindMinimumSteps initial target size).steps ∧
    List.Chain (fun a b => AdjacentSwap a b ∧ a ≠ b) initial
      (FindMinimumSteps initial target size).trace ∧
    (FindMinimumSteps initial target size).trace.getLastD initial
      = (FindMinimumSteps initial target size).final := by
  have hcopy : CopyArray initial size = initial := by
    rw [CopyArray, ← hi, List.take_length]
  obtain ⟨tr, h1, h2, h3, h4⟩ := forLoop_trace target size (size - 0) 0
    { current := CopyArray initial size, steps := 0, trace := [] } rfl
    (by rw [hcopy]; exact hi)
  simp only [FindMinimumSteps]
  rw [h1, h2]
  rw [hcopy] at h3
  refine ⟨by simp, h3, ?_⟩
  show tr.getLastD initial = _
  rw [← h4, hcopy]

theorem FindMinimumSteps_of_perm (initial target : List Int) (size : Nat)
    (hi : initial.length = size) (hperm : initial.Perm target) :
    (FindMinimumSteps initial target size).final = target ∧
    (FindMinimumSteps initial target size).steps = alignCost initial target := by
  have hcopy : CopyArray initial size = initial := by
    rw [CopyArray, ← hi, List.take_length]
  have h := forLoop_aligned target [] [] initial
    { current := CopyArray initial size, steps := 0, trace := [] } rfl hperm
    (by rw [hcopy]; rfl)
  simp only [List.length_nil, Nat.zero_add, List.nil_append, hi] at h
  simp only [FindMinimumSteps]
  exact h


/-! ## The loop of `FindMinimumSteps` position by position -/

theorem forLoop_step (target : List Int) (size i : Nat) (st : StepsRun) (hi : i < size) :
    FindMinimumSteps.forLoop target size i st
      = FindMinimumSteps.forLoop target size (i + 1)
          (FindMinimumSteps.forBody target size i st) := by
  rw [FindMinimumSteps.forLoop, if_pos hi, FindMinimumSteps.forBody]
  by_cases heq : st.current.getD i 0 = target.getD i 0
  · rw [if_pos heq, if_pos heq]
  · rw [if_neg heq, if_neg heq]
    cases findTargetPos st.current (target.getD i 0) size (i + 1) <;> rfl

theorem forLoop_afterPositions (target : List Int) (size : Nat) (st : StepsRun) (d : Nat) :
    ∀ k, size - k = d → k ≤ size →
      FindMinimumSteps.forLoop target size k
          (FindMinimumSteps.afterPositions target size k st)
        = FindMinimumSteps.afterPositions target size size st := by
  induction d with
  | zero =>
    intro k hd hk
    have hks : k = size := by omega
    rw [FindMinimumSteps.forLoop, if_neg (by omega), hks]
  | succ d ih =>
    intro k hd hk
    rw [forLoop_step target size k _ (by omega)]
    exact ih (k + 1) (by omega) (by omega)

theorem forLoop_eq_afterPositions (target : List Int) (size : Nat) (st : StepsRun) :
    FindMinimumSteps.forLoop target size 0 st
      = FindMinimumSteps.afterPositions target size size st :=
  forLoop_afterPositions target size st (size - 0) 0 rfl (Nat.zero_le _)

theorem forLoop_of_agree (target : List Int) (size : Nat) (st : StepsRun)
    (hagree : ∀ q, q < size → st.current.getD q 0 = target.getD q 0) (d : Nat) :
    ∀ i, size - i = d → FindMinimumSteps.forLoop target size i st = st := by
  induction d with
  | zero =>
    intro i hd
    rw [FindMinimumSteps.forLoop, if_neg (by omega)]
  | succ d ih =>
    intro i hd
    rw [FindMinimumSteps.forLoop, if_pos (by omega), if_pos (hagree i (by omega))]
    exact ih (i + 1) (by omega)

theorem take_set_of_le (l : List Int) (i n : Nat) (e : Int) (h : i ≤ n) :
    (l.set n e).take i = l.take i := by
  rw [List.set_take]
  exact List.set_eq_of_length_le (by rw [List.length_take]; omega)

theorem Swap_take (a : List Int) (i p : Nat) (h : i < p) :
    (Swap a p (p - 1)).take i = a.take i := by
  rw [Swap, take_set_of_le _ _ _ _ (by omega), take_set_of_le _ _ _ _ (by omega)]

theorem swapLoop_trace_take (i : Nat) :
    ∀ (p : Nat) (st : StepsRun),
      ∃ tr, (swapLoop i p st).trace = st.trace ++ tr ∧
        ∀ c ∈ tr, c.take i = st.current.take i := by
  intro p
  induction p with
  | zero =>
    intro st
    rw [swapLoop, if_neg (by omega)]
    exact ⟨[], by simp, by simp⟩
  | succ p ih =>
    intro st
    rw [swapLoop]
    by_cases h : p + 1 > i
    · rw [if_pos h]
      obtain ⟨tr, h1, h2⟩ := ih
        { current := Swap st.current (p + 1) (p + 1 - 1), steps := st.steps + 1,
          trace := st.trace ++ [Swap st.current (p + 1) (p + 1 - 1)] }
      refine ⟨Swap st.current (p + 1) (p + 1 - 1) :: tr, ?_, ?_⟩
      · rw [Nat.add_sub_cancel] at h1 ⊢
        rw [h1]; simp
      · intro c hc
        rcases List.mem_cons.mp hc with rfl | hc
        · exact Swap_take _ _ _ h
        · rw [h2 c hc]
          exact Swap_take _ _ _ h
    · rw [if_neg h]
      exact ⟨[], by simp, by simp⟩

theorem findTargetPos_eq_none {current : List Int} {v : Int} {size j : Nat}
    (h : ∀ q, j ≤ q → q < size → current.getD q 0 ≠ v) :
    findTargetPos current v size j = none := by
  cases hf : findTargetPos current v size j with
  | none => rfl
  | some p =>
    obtain ⟨h1, h2, h3, _⟩ := findTargetPos_some current v size _ j p rfl hf
    exact absurd h3 (h p h1 h2)

theorem forBody_found_split (target : List Int) (size : Nat) (pre A B : List Int)
    (v : Int) (st : StepsRun) (hcur : st.current = pre ++ (A ++ v :: B))
    (hvA : v ∉ A) (hA : A ≠ []) (hv : target.getD pre.length 0 = v)
    (hsize : st.current.length = size) :
    FindMinimumSteps.forBody target size pre.length st
      = swapLoop pre.length (pre.length + A.length) st := by
  cases A with
  | nil => exact absurd rfl hA
  | cons x A' =>
    have hxv : x ≠ v := by
      intro e; apply hvA; simp [e]
    have hc0 : st.current.getD pre.length 0 = x := by
      rw [hcur, List.getD_append_right _ _ _ _ (Nat.le_refl _)]; simp
    have hfind : findTargetPos st.current v size (pre.length + 1)
        = some (pre.length + (x :: A').length) := by
      apply findTargetPos_eq_some
      · simp
      · rw [← hsize, hcur]; simp
      · rw [hcur, List.getD_append_right _ _ _ _ (Nat.le_add_right _ _),
          Nat.add_sub_cancel_left, List.getD_append_right _ _ _ _ (Nat.le_refl _)]
        simp
      · intro q hq1 hq2 hq3
        apply hvA
        rw [hcur, List.getD_append_right _ _ _ _ (by omega),
          List.getD_append _ _ _ _ (by omega),
          List.getD_eq_getElem _ _ (by omega)] at hq3
        rw [← hq3]
        exact List.getElem_mem _
    rw [FindMinimumSteps.forBody, hv, if_neg (by rw [hc0]; exact hxv), hfind]

theorem forBody_effect (target : List Int) (size i : Nat) (st : StepsRun)
    (hlen : st.current.length = size) (hi : i < size) :
    ∃ tr, (FindMinimumSteps.forBody target size i st).trace = st.trace ++ tr ∧
      (FindMinimumSteps.forBody target size i st).steps = st.steps + tr.length ∧
      tr.length ≤ size - 1 - i ∧
      List.Chain (fun a b => AdjacentSwap a b ∧ a ≠ b) st.current tr ∧
      tr.getLastD st.current = (FindMinimumSteps.forBody target size i st).current ∧
      (FindMinimumSteps.forBody target size i st).current.length = size ∧
      ∀ c ∈ tr, c.take i = st.current.take i := by
  have hsame : ∃ tr, st.trace = st.trace ++ tr ∧ st.steps = st.steps + tr.length ∧
      tr.length ≤ size - 1 - i ∧
      List.Chain (fun a b => AdjacentSwap a b ∧ a ≠ b) st.current tr ∧
      tr.getLastD st.current = st.current ∧ st.current.length = size ∧
      ∀ c ∈ tr, c.take i = st.current.take i :=
    ⟨[], by simp, by simp, by simp, List.Chain.nil, rfl, hlen, by simp⟩
  rw [FindMinimumSteps.forBody]
  by_cases heq : st.current.getD i 0 = target.getD i 0
  · rw [if_pos heq]; exact hsame
  · rw [if_neg heq]
    cases hfind : findTargetPos st.current (target.getD i 0) size (i + 1) with
    | none => exact hsame
    | some p =>
      dsimp only
      obtain ⟨h1, h2, h3, h4⟩ := findTargetPos_some _ _ _ _ (i + 1) p rfl hfind
      have hfirst : ∀ q, i ≤ q → q < p → st.current.getD q 0 ≠ target.getD i 0 := by
        intro q hq1 hq2
        by_cases hqi : q = i
        · rw [hqi]; exact heq
        · exact h4 q (by omega) hq2
      obtain ⟨pre, A, B, hcur, hpre, hA, hvA⟩ :=
        split_of_first (by omega) (by omega) h3 hfirst
      have hp : i + A.length = p := by omega
      obtain ⟨e1, e2, tr1, e3, e4, e5, e6⟩ := swapLoop_effect pre _ A B st hcur hvA
      rw [hpre, hp] at e1 e2 e3
      obtain ⟨tr2, g1, g2⟩ := swapLoop_trace_take i p st
      have htr : tr2 = tr1 := List.append_cancel_left (g1.symm.trans e3)
      rw [htr] at g2
      refine ⟨tr1, e3, by rw [e2, e4], by omega, e5, by rw [e6, e1], ?_, g2⟩
      rw [e1, ← hlen, hcur]; simp; omega

theorem getD_moved_mid (pre A B : List Int) (v : Int) (k : Nat) (hk : k < A.length) :
    (pre ++ v :: (A ++ B)).getD (pre.length + k + 1) 0
      = (pre ++ (A ++ v :: B)).getD (pre.length + k) 0 := by
  rw [List.getD_append_right _ _ _ _ (by omega), List.getD_append_right _ _ _ _ (by omega),
    show pre.length + k + 1 - pre.length = k + 1 by omega,
    show pre.length + k - pre.length = k by omega, List.getD_cons_succ,
    List.getD_append _ _ _ _ hk, List.getD_append _ _ _ _ hk]

theorem getD_moved_high (pre A B : List Int) (v : Int) (q : Nat)
    (hq : pre.length + A.length < q) :
    (pre ++ v :: (A ++ B)).getD q 0 = (pre ++ (A ++ v :: B)).getD q 0 := by
  obtain ⟨m, rfl⟩ : ∃ m, q = pre.length + A.length + 1 + m := ⟨q - (pre.length + A.length + 1), by omega⟩
  rw [List.getD_append_right _ _ _ _ (by omega), List.getD_append_right _ _ _ _ (by omega),
    show pre.length + A.length + 1 + m - pre.length = (A.length + m) + 1 by omega,
    List.getD_cons_succ, List.getD_append_right _ _ _ _ (by omega),
    List.getD_append_right _ _ _ _ (by omega),
    show A.length + m - A.length = m by omega,
    show A.length + m + 1 - A.length = m + 1 by omega, List.getD_cons_succ]

theorem getD_moved_low (pre X Y : List Int) (q : Nat) (hq : q < pre.length) :
    (pre ++ X).getD q 0 = (pre ++ Y).getD q 0 := by
  rw [List.getD_append _ _ _ _ hq, List.getD_append _ _ _ _ hq]

theorem getD_moved_at (pre R : List Int) (v : Int) :
    (pre ++ v :: R).getD pre.length 0 = v := by
  rw [List.getD_append_right _ _ _ _ (Nat.le_refl _)]; simp

theorem chain_perm :
    ∀ (tr : List (List Int)) (a : List Int),
      List.Chain (fun a b => AdjacentSwap a b ∧ a ≠ b) a tr → ∀ c ∈ tr, c.Perm a := by
  intro tr
  induction tr with
  | nil => intro a _ c hc; cases hc
  | cons b tr ih =>
    intro a h c hc
    rw [List.chain_cons] at h
    rcases List.mem_cons.mp hc with rfl | hc
    · exact AdjacentSwap_perm h.1.1
    · exact (ih b h.2 c hc).trans (AdjacentSwap_perm h.1.1)

theorem afterPositions_length (target : List Int) (size : Nat) (st : StepsRun)
    (hlen : st.current.length = size) :
    ∀ k, k ≤ size →
      (FindMinimumSteps.afterPositions target size k st).current.length = size := by
  intro k
  induction k with
  | zero => intro _; exact hlen
  | succ k ih =>
    intro hk
    obtain ⟨_, _, _, _, _, _, h, _⟩ := forBody_effect target size k
      (FindMinimumSteps.afterPositions target size k st) (ih (by omega)) (by omega)
    exact h

theorem afterPositions_steps_succ (target : List Int) (size : Nat) (st : StepsRun)
    (hlen : st.current.length = size) (k : Nat) (hk : k < size) :
    (FindMinimumSteps.afterPositions target size (k + 1) st).steps
      ≤ (FindMinimumSteps.afterPositions target size k st).steps + (size - 1 - k) := by
  obtain ⟨tr, _, h2, h3, _⟩ := forBody_effect target size k
    (FindMinimumSteps.afterPositions target size k st)
    (afterPositions_length target size st hlen k (by omega)) hk
  show (FindMinimumSteps.forBody target size k
    (FindMinimumSteps.afterPositions target size k st)).steps ≤ _
  omega

theorem triangle_step (e : Nat) : e + e * (e - 1) / 2 = (e + 1) * e / 2 := by
  cases e with
  | zero => simp
  | succ k =>
    have h : (k + 1 + 1) * (k + 1) = (k + 1) * k + 2 * (k + 1) := by ring
    rw [h, Nat.add_mul_div_left _ _ (by decide : 0 < 2), Nat.add_sub_cancel]
    omega

theorem afterPositions_steps_le (target : List Int) (size : Nat) (st : StepsRun)
    (hlen : st.current.length = size) :
    ∀ k, k ≤ size →
      (FindMinimumSteps.afterPositions target size k st).steps
          + (size - k) * (size - k - 1) / 2
        ≤ st.steps + size * (size - 1) / 2 := by
  intro k
  induction k with
  | zero => intro _; exact Nat.le_refl _
  | succ k ih =>
    intro hk
    have h1 := afterPositions_steps_succ target size st hlen k (by omega)
    have h2 := ih (by omega)
    have h3 := triangle_step (size - k - 1)
    have e1 : size - (k + 1) = size - k - 1 := by omega
    have e2 : size - k = size - k - 1 + 1 := by omega
    rw [e1]
    rw [e2, Nat.add_sub_cancel, ← h3] at h2
    omega

theorem steps_fit_int (initial target : List Int) (size : Nat)
    (hi : initial.length = size) (hs : size ≤ 65536) :
    (FindMinimumSteps initial target size).steps ≤ 2147483647 := by
  have hlen : ({ current := CopyArray initial size, steps := 0, trace := [] } :
      StepsRun).current.length = size := by
    show (CopyArray initial size).length = size
    rw [CopyArray, List.length_take]; omega
  have hrun : (FindMinimumSteps initial target size).steps
      = (FindMinimumSteps.afterPositions target size size
          { current := CopyArray initial size, steps := 0, trace := [] }).steps := by
    simp only [FindMinimumSteps, forLoop_eq_afterPositions]
  have h := afterPositions_steps_le target size _ hlen size (Nat.le_refl _)
  have hmul : size * (size - 1) ≤ 65536 * 65535 :=
    Nat.mul_le_mul hs (by omega)
  have hdiv : size * (size - 1) / 2 ≤ 65536 * 65535 / 2 := Nat.div_le_div_right hmul
  rw [hrun]
  simp only [Nat.sub_self, Nat.zero_mul, Nat.zero_div, Nat.add_zero, Nat.zero_add] at h
  have hnum : 65536 * 65535 / 2 = 2147450880 := by norm_num
  omega

theorem forBody_aligned (target : List Int) (size : Nat) (pre suf t : List Int) (y : Int)
    (st : StepsRun) (hcur : st.current = pre ++ suf) (hperm : suf.Perm (y :: t))
    (hy : target.getD pre.length 0 = y) (hsize : st.current.length = size) :
    (FindMinimumSteps.forBody target size pre.length st).current
      = pre ++ y :: suf.erase y ∧
    (FindMinimumSteps.forBody target size pre.length st).steps
      = st.steps + suf.indexOf y ∧
    (suf.erase y).Perm t := by
  have hmem : y ∈ suf := hperm.symm.subset (List.mem_cons_self y t)
  obtain ⟨A, B, hA, hsuf, herase⟩ := List.exists_erase_eq hmem
  have hpermAB : (suf.erase y).Perm t :=
    (List.cons_perm_iff_perm_erase.mp hperm.symm).2.symm
  have hidx : suf.indexOf y = A.length := by
    rw [hsuf, List.indexOf_append_of_not_mem hA, List.indexOf_cons_self]; simp
  rw [herase, hidx]
  rw [herase] at hpermAB
  by_cases hnil : A = []
  · subst hnil
    have hc0 : st.current.getD pre.length 0 = target.getD pre.length 0 := by
      rw [hy, hcur, hsuf]; exact getD_moved_at pre _ _
    rw [FindMinimumSteps.forBody, if_pos hc0]
    exact ⟨by rw [hcur, hsuf]; simp, by simp, hpermAB⟩
  · rw [forBody_found_split target size pre A B y st (by rw [hcur, hsuf]) hA hnil hy hsize]
    obtain ⟨e1, e2, _⟩ := swapLoop_effect pre y A B st (by rw [hcur, hsuf]) hA
    exact ⟨e1, e2, hpermAB⟩

theorem afterPositions_aligned (initial target : List Int) (size : Nat)
    (hi : initial.length = size) (ht : target.length = size)
    (hperm : initial.Perm target) :
    ∀ k, k ≤ size → ∃ suf,
      (FindMinimumSteps.afterPositions target size k
        { current := CopyArray initial size, steps := 0, trace := [] }).current
          = target.take k ++ suf ∧
      suf.Perm (target.drop k) := by
  have hcopy : CopyArray initial size = initial := by
    rw [CopyArray, ← hi, List.take_length]
  have hlen0 : ({ current := CopyArray initial size, steps := 0, trace := [] } :
      StepsRun).current.length = size := by
    show (CopyArray initial size).length = size
    rw [hcopy, hi]
  intro k
  induction k with
  | zero =>
    intro _
    exact ⟨initial, by simp [FindMinimumSteps.afterPositions, hcopy], by simpa using hperm⟩
  | succ k ih =>
    intro hk
    obtain ⟨suf, hcur, hsuf⟩ := ih (by omega)
    have hklt : k < target.length := by omega
    have hdrop : target.drop k = target[k] :: target.drop (k + 1) :=
      List.drop_eq_getElem_cons hklt
    have htake : target.take (k + 1) = target.take k ++ [target[k]] := by
      rw [List.take_succ]; simp [hklt]
    have hprelen : (target.take k).length = k := by
      rw [List.length_take]; omega
    rw [hdrop] at hsuf
    obtain ⟨h1, _, h3⟩ := forBody_aligned target size (target.take k) suf
      (target.drop (k + 1)) target[k]
      (FindMinimumSteps.afterPositions target size k
        { current := CopyArray initial size, steps := 0, trace := [] })
      hcur hsuf (by rw [hprelen, List.getD_eq_getElem _ _ hklt])
      (afterPositions_length target size _ hlen0 k (by omega))
    rw [hprelen] at h1
    refine ⟨suf.erase target[k], ?_, h3⟩
    show (FindMinimumSteps.forBody target size k _).current = _
    rw [h1, htake, List.append_assoc]
    rfl

/-! ## Inversions -/

/-- C1, as the code has it: for a source of length `n` and `0 <= r <= n` with
`C(n, r) <= 2^31 - 1`, the range of the `int` counter, `GenerateCombinations`
returns a count equal to the binomial coefficient `C(n, r)`, and that count is
the number of combinations emitted. -/
theorem GenerateCombinations_count_eq_choose (elements : List Int) (n : Nat) (r : Int)
    (hn : elements.length = n) (h0 : 0 ≤ r) (hr : r ≤ n)
    (hfit : Nat.choose n r.toNat ≤ 2147483647) :
    ∃ run, GenerateCombinations elements n r = Except.ok run ∧
      run.count = (Nat.choose n r.toNat : Int) ∧
      (run.emitted.length : Int) = run.count := by
  obtain ⟨run, hrun, hc, he⟩ := GenerateCombinations_run elements n r h0
  have hlen : (indexTuples n r.toNat).length = Nat.choose n r.toNat := by
    rw [indexTuples, selections_length, List.length_range']
  have hcount : run.count = (Nat.choose n r.toNat : Int) := by
    rw [hc, hlen, countAfter_of_fits 0 _ (by decide) (by omega)]
    simp
  refine ⟨run, hrun, hcount, ?_⟩
  rw [hcount, he, List.length_map, hlen]

theorem GenerateCombinations_count_eq_choose_witness :
    ([1, 2, 3, 4] : List Int).length = 4 ∧ (0 : Int) ≤ 2 ∧ (2 : Int) ≤ (4 : Nat) ∧
    Nat.choose 4 (2 : Int).toNat ≤ 2147483647 ∧
    ∃ run, GenerateCombinations [1, 2, 3, 4] 4 2 = Except.ok run ∧
      run.count = (Nat.choose 4 (2 : Int).toNat : Int) ∧
      (run.emitted.length : Int) = run.count :=
  ⟨by decide, by decide, by decide, by decide,
    GenerateCombinations_count_eq_choose [1, 2, 3, 4] 4 2
      (by decide) (by decide) (by decide) (by decide)⟩

/-- C1 as stated fails: on the source `1, 2, ..., 34` with `n = 34` and
`r = 17` the enumeration counts `C(34, 17) = 2333606220` combinations in an
`int`; the returned count is `-1961361076`, not the binomial coefficient. -/
theorem GenerateCombinations_count_overflow :
    ([1, 2, 3, 4, 5, 6, 7, 8, 9, 10, 11, 12, 13, 14, 15, 16, 17, 18, 19, 20, 21, 22,
      23, 24, 25, 26, 27, 28, 29, 30, 31, 32, 33, 34] : List Int).length = 34 ∧ (0 : Int) ≤ 17 ∧ (17 : Int) ≤ (34 : Nat) ∧
    ∃ run, GenerateCombinations
        [1, 2, 3, 4, 5, 6, 7, 8, 9, 10, 11, 12, 13, 14, 15, 16, 17, 18, 19, 20, 21, 22,
      23, 24, 25, 26, 27, 28, 29, 30, 31, 32, 33, 34] 34 17 = Except.ok run ∧
      run.count = -1961361076 ∧ run.count ≠ (Nat.choose 34 (17 : Int).toNat : Int) := by
  refine ⟨by decide, by decide, by decide, ?_⟩
  obtain ⟨run, hrun, hc, _⟩ := GenerateCombinations_run
    [1, 2, 3, 4, 5, 6, 7, 8, 9, 10, 11, 12, 13, 14, 15, 16, 17, 18, 19, 20, 21, 22,
      23, 24, 25, 26, 27, 28, 29, 30, 31, 32, 33, 34] 34 17 (by decide)
  have hlen : (indexTuples 34 (17 : Int).toNat).length = 2333606219 + 1 := by
    rw [indexTuples, selections_length, List.length_range']
    exact choose_34_17
  have hcount : run.count = -1961361076 := by
    rw [hc, hlen, countAfter_eq_wrap]
    norm_num [wrapInt32]
  refine ⟨run, hrun, hcount, ?_⟩
  rw [hcount, show (17 : Int).toNat = 17 from rfl, choose_34_17]
  decide

/-- C2: for a source of length `n` and `0 <= r <= n`, the combinations emitted
by `GenerateCombinations` are the selections `source[i_1], ..., source[i_r]`
along the list `indexTuples n r`, which holds every strictly increasing index
tuple `0 <= i_1 < ... < i_r <= n-1` and holds none twice; every emission has
length `r`, and for a source of distinct values no two emissions are equal. -/
theorem GenerateCombinations_emits_index_selections (elements : List Int) (n : Nat)
    (r : Int) (hn : elements.length = n) (h0 : 0 ≤ r) (hr : r ≤ n) :
    ∃ run, GenerateCombinations elements n r = Except.ok run ∧
      run.emitted = (indexTuples n r.toNat).map (selectAt elements) ∧
      (∀ c ∈ run.emitted, c.length = r.toNat) ∧
      (∀ t, t ∈ indexTuples n r.toNat ↔
        t.length = r.toNat ∧ t.Pairwise (· < ·) ∧ ∀ i ∈ t, i < n) ∧
      (indexTuples n r.toNat).Nodup ∧
      (elements.Nodup → run.emitted.Nodup) := by
  obtain ⟨run, hrun, _, he⟩ := GenerateCombinations_run elements n r h0
  have hnodup : (indexTuples n r.toNat).Nodup := selections_nodup (range'_pairwise_lt 0 n)
  refine ⟨run, hrun, he, ?_, mem_indexTuples n r.toNat, hnodup, ?_⟩
  · intro c hc
    rw [he, List.mem_map] at hc
    obtain ⟨t, ht, rfl⟩ := hc
    simp [selectAt, ((mem_indexTuples n r.toNat t).mp ht).1]
  · intro hd
    rw [he]
    refine List.Nodup.map_on ?_ hnodup
    intro s hs t ht hst
    refine selectAt_injOn elements hd s t ?_ ?_ hst
    · intro i hi
      rw [hn]
      exact ((mem_indexTuples n r.toNat s).mp hs).2.2 i hi
    · intro i hi
      rw [hn]
      exact ((mem_indexTuples n r.toNat t).mp ht).2.2 i hi

theorem GenerateCombinations_emits_index_selections_witness :
    ([5, 7, 5] : List Int).length = 3 ∧ (0 : Int) ≤ 2 ∧ (2 : Int) ≤ (3 : Nat) ∧
    ∃ run, GenerateCombinations [5, 7, 5] 3 2 = Except.ok run ∧
      run.emitted = (indexTuples 3 (2 : Int).toNat).map (selectAt [5, 7, 5]) ∧
      (∀ c ∈ run.emitted, c.length = (2 : Int).toNat) ∧
      (∀ t, t ∈ indexTuples 3 (2 : Int).toNat ↔
        t.length = (2 : Int).toNat ∧ t.Pairwise (· < ·) ∧ ∀ i ∈ t, i < 3) ∧
      (indexTuples 3 (2 : Int).toNat).Nodup ∧
      (([5, 7, 5] : List Int).Nodup → run.emitted.Nodup) :=
  ⟨by decide, by decide, by decide,
    GenerateCombinations_emits_index_selections [5, 7, 5] 3 2
      (by decide) (by decide) (by decide)⟩

/-- C3: for a source of length `n` and `0 <= r <= n`, `GenerateCombinations`
emits the combinations in strictly increasing lexicographic order of their
index tuples: the emissions are the selections along `indexTuples n r`, and
in that list every tuple is lexicographically smaller than each later one. -/
theorem GenerateCombinations_lexicographic (elements : List Int) (n : Nat)
    (r : Int) (hn : elements.length = n) (h0 : 0 ≤ r) (hr : r ≤ n) :
    ∃ run, GenerateCombinations elements n r = Except.ok run ∧
      run.emitted = (indexTuples n r.toNat).map (selectAt elements) ∧
      (indexTuples n r.toNat).Pairwise (List.Lex (· < ·)) := by
  obtain ⟨run, hrun, _, he⟩ := GenerateCombinations_run elements n r h0
  exact ⟨run, hrun, he, selections_lex (range'_pairwise_lt 0 n)⟩

theorem GenerateCombinations_lexicographic_witness :
    ([1, 2, 3, 4] : List Int).length = 4 ∧ (0 : Int) ≤ 3 ∧ (3 : Int) ≤ (4 : Nat) ∧
    ∃ run, GenerateCombinations [1, 2, 3, 4] 4 3 = Except.ok run ∧
      run.emitted = (indexTuples 4 (3 : Int).toNat).map (selectAt [1, 2, 3, 4]) ∧
      (indexTuples 4 (3 : Int).toNat).Pairwise (List.Lex (· < ·)) :=
  ⟨by decide, by decide, by decide,
    GenerateCombinations_lexicographic [1, 2, 3, 4] 4 3 (by decide) (by decide) (by decide)⟩

/-- C7: for a source of length `n` and every `r > n`, `GenerateCombinations`
emits no combination and returns count 0. -/
theorem GenerateCombinations_size_above_length (elements : List Int) (n : Nat)
    (r : Int) (hn : elements.length = n) (hr : (n : Int) < r) :
    ∃ run, GenerateCombinations elements n r = Except.ok run ∧
      run.emitted = [] ∧ run.count = 0 := by
  obtain ⟨run, hrun, hc, he⟩ := GenerateCombinations_run elements n r (by omega)
  have hnil : indexTuples n r.toNat = [] :=
    selections_eq_nil_of_length_lt (by rw [List.length_range']; omega)
  refine ⟨run, hrun, ?_, ?_⟩
  · rw [he, hnil, List.map_nil]
  · rw [hc, hnil, List.length_nil]
    rfl

theorem GenerateCombinations_size_above_length_witness :
    ([1, 2, 3] : List Int).length = 3 ∧ ((3 : Nat) : Int) < 5 ∧
    ∃ run, GenerateCombinations [1, 2, 3] 3 5 = Except.ok run ∧
      run.emitted = [] ∧ run.count = 0 :=
  ⟨by decide, by decide,
    GenerateCombinations_size_above_length [1, 2, 3] 3 5 (by decide) (by decide)⟩

/-- C8: for every source sequence, `GenerateCombinations` with `r = 0` emits
exactly one combination, the empty sequence, and returns count 1. -/
theorem GenerateCombinations_size_zero (elements : List Int) (n : Nat) :
    ∃ run, GenerateCombinations elements n 0 = Except.ok run ∧
      run.emitted = [[]] ∧ run.count = 1 := by
  refine ⟨_, by rw [GenerateCombinations, if_neg (lt_irrefl 0)], ?_, ?_⟩ <;>
    simp [GenerateCombinationsRecursive, PrintCombination, wrapInt32]

/-- C9, as the code has it: for a negative `r`, `GenerateCombinations` does not
raise `InvalidArgument`; the call ends in the allocation `new int[r]` of the
scratch buffer, before the enumeration starts, so that no combination is
emitted and no count is returned. -/
theorem GenerateCombinations_negative_size (elements : List Int) (n : Nat) (r : Int)
    (hr : r < 0) :
    GenerateCombinations elements n r = Except.error Condition.BadArrayNewLength := by
  rw [GenerateCombinations, if_pos hr]

theorem GenerateCombinations_negative_size_witness :
    (-1 : Int) < 0 ∧
    GenerateCombinations [1, 2, 3] 3 (-1) = Except.error Condition.BadArrayNewLength :=
  ⟨by decide, GenerateCombinations_negative_size [1, 2, 3] 3 (-1) (by decide)⟩

/-- C9 as stated fails: on the source `[1, 2, 3]` with `r = -1` the call does
not end in `InvalidArgument`. -/
theorem GenerateCombinations_negative_size_not_invalidArgument :
    GenerateCombinations [1, 2, 3] 3 (-1) ≠ Except.error Condition.InvalidArgument := by
  simp [GenerateCombinations]

/-! ## The claims on `FindMinimumSteps` -/

/-- C4: for `initial` and `target` of the same length that are permutations
of the same multiset of values, the working sequence of `FindMinimumSteps`
equals `target` when the loop over the positions finishes, and
`reachedTarget` is true. -/
theorem FindMinimumSteps_reaches_target (initial target : List Int) (size : Nat)
    (hi : initial.length = size) (ht : target.length = size)
    (hperm : initial.Perm target) :
    (FindMinimumSteps initial target size).final = target ∧
    (FindMinimumSteps initial target size).reachedTarget = true := by
  have h := (FindMinimumSteps_of_perm initial target size hi hperm).1
  refine ⟨h, ?_⟩
  have hr : (FindMinimumSteps initial target size).reachedTarget
      = ArraysEqual (FindMinimumSteps initial target size).final target size := rfl
  rw [hr, h]
  simp [ArraysEqual]

theorem FindMinimumSteps_reaches_target_witness :
    ([3, 1, 3, 2] : List Int).length = 4 ∧ ([3, 3, 2, 1] : List Int).length = 4 ∧
    ([3, 1, 3, 2] : List Int).Perm [3, 3, 2, 1] ∧
    (FindMinimumSteps [3, 1, 3, 2] [3, 3, 2, 1] 4).final = [3, 3, 2, 1] ∧
    (FindMinimumSteps [3, 1, 3, 2] [3, 3, 2, 1] 4).reachedTarget = true :=
  ⟨by decide, by decide, by decide,
    FindMinimumSteps_reaches_target [3, 1, 3, 2] [3, 3, 2, 1] 4
      (by decide) (by decide) (by decide)⟩

/-- C10: for `initial` and `target` of the same length that are not
permutations of the same multiset of values, `FindMinimumSteps` ends with a
working sequence different from `target`, `reachedTarget` is false, and the
call still returns its step count, the number of swaps it made. -/
theorem FindMinimumSteps_not_perm (initial target : List Int) (size : Nat)
    (hi : initial.length = size) (ht : target.length = size)
    (hnp : ¬ initial.Perm target) :
    ∃ res, FindMinimumSteps initial target size = res ∧
      res.final ≠ target ∧ res.reachedTarget = false ∧ res.steps = res.trace.length := by
  obtain ⟨hlen, hchain, hlast⟩ := FindMinimumSteps_run initial target size hi
  have hperm : (FindMinimumSteps initial target size).final.Perm initial := by
    rw [← hlast]
    exact SwapsTo_perm (swapsTo_of_chain _ _ hchain)
  have hne : (FindMinimumSteps initial target size).final ≠ target := by
    intro e
    rw [e] at hperm
    exact hnp hperm.symm
  have hflen : (FindMinimumSteps initial target size).final.length = size := by
    rw [hperm.length_eq, hi]
  refine ⟨_, rfl, hne, ?_, hlen.symm⟩
  have hr : (FindMinimumSteps initial target size).reachedTarget
      = ArraysEqual (FindMinimumSteps initial target size).final target size := rfl
  rw [hr, ArraysEqual, decide_eq_false_iff_not]
  intro e
  rw [List.take_of_length_le (Nat.le_of_eq hflen),
    List.take_of_length_le (Nat.le_of_eq ht)] at e
  exact hne e

theorem FindMinimumSteps_not_perm_witness :
    ([1, 2, 3] : List Int).length = 3 ∧ ([9, 3, 2] : List Int).length = 3 ∧
    ¬ ([1, 2, 3] : List Int).Perm [9, 3, 2] ∧
    ∃ res, FindMinimumSteps [1, 2, 3] [9, 3, 2] 3 = res ∧
      res.final ≠ [9, 3, 2] ∧ res.reachedTarget = false ∧ res.steps = res.trace.length :=
  ⟨by decide, by decide, by decide,
    FindMinimumSteps_not_perm [1, 2, 3] [9, 3, 2] 3 (by decide) (by decide) (by decide)⟩

/-! ## Further claims: fixed inputs, the loop position by position, bounds -/

/-- C12: on the source `[1,2,3,4]` with `n = 4` and `r = 2`,
`GenerateCombinations` emits, in this order, `[1,2]`, `[1,3]`, `[1,4]`,
`[2,3]`, `[2,4]`, `[3,4]` and returns count 6. -/
theorem GenerateCombinations_four_choose_two :
    ∃ run, GenerateCombinations [1, 2, 3, 4] 4 2 = Except.ok run ∧
      run.emitted = [[1, 2], [1, 3], [1, 4], [2, 3], [2, 4], [3, 4]] ∧
      run.count = 6 := by
  refine ⟨_, by rw [GenerateCombinations, if_neg (by decide)], ?_, ?_⟩ <;>
    simp [GenerateCombinationsRecursive, GenerateCombinationsRecursive.forLoop,
      PrintCombination, wrapInt32]

/-- C13: on `initial = [1,2,3,4]`, `target = [4,3,2,1]`, `size = 4`,
`FindMinimumSteps` reaches the target with step count 6, its trace being
`[1,2,4,3]`, `[1,4,2,3]`, `[4,1,2,3]`, `[4,1,3,2]`, `[4,3,1,2]`, `[4,3,2,1]`. -/
theorem FindMinimumSteps_reverse_four :
    FindMinimumSteps [1, 2, 3, 4] [4, 3, 2, 1] 4 =
      { steps := 6
        trace := [[1, 2, 4, 3], [1, 4, 2, 3], [4, 1, 2, 3], [4, 1, 3, 2], [4, 3, 1, 2],
          [4, 3, 2, 1]]
        final := [4, 3, 2, 1]
        reachedTarget := true } := by
  simp [FindMinimumSteps, FindMinimumSteps.forLoop, findTargetPos, swapLoop, Swap,
    CopyArray, ArraysEqual]

/-- C11: for every sequence `S`, `FindMinimumSteps(S, S)` performs no swap: it
returns step count 0, its trace is empty, the working sequence stays `S`, and
`reachedTarget` is true. -/
theorem FindMinimumSteps_same (S : List Int) :
    FindMinimumSteps S S S.length =
      { steps := 0, trace := [], final := S, reachedTarget := true } := by
  have hcopy : CopyArray S S.length = S := by rw [CopyArray, List.take_length]
  have hloop := forLoop_of_agree S S.length
    { current := S, steps := 0, trace := [] } (fun _ _ => rfl) (S.length - 0) 0 rfl
  simp only [FindMinimumSteps, hcopy, hloop]
  simp [ArraysEqual]

/-- C15: when `FindMinimumSteps` processes a position `i` with
`current[i] != target[i]` and `j` is the least position above `i` with
`current[j] == target[i]`, the search stops at `j` and that cell is moved:
afterwards `current[i]` is `target[i]`, the cells formerly at `i .. j-1` sit
at `i+1 .. j` in their order, the positions outside `i .. j` are unchanged,
and exactly `j - i` steps are added. -/
theorem FindMinimumSteps_moves_leftmost (target : List Int) (size i j : Nat)
    (st : StepsRun) (hlen : st.current.length = size) (hij : i < j) (hj : j < size)
    (hne : st.current.getD i 0 ≠ target.getD i 0)
    (hv : st.current.getD j 0 = target.getD i 0)
    (hleast : ∀ q, i < q → q < j → st.current.getD q 0 ≠ target.getD i 0) :
    FindMinimumSteps.forLoop target size i st
      = FindMinimumSteps.forLoop target size (i + 1)
          (FindMinimumSteps.forBody target size i st) ∧
    findTargetPos st.current (target.getD i 0) size (i + 1) = some j ∧
    (FindMinimumSteps.forBody target size i st).current.getD i 0 = target.getD i 0 ∧
    (∀ q, i ≤ q → q < j →
      (FindMinimumSteps.forBody target size i st).current.getD (q + 1) 0
        = st.current.getD q 0) ∧
    (∀ q, q < i ∨ j < q →
      (FindMinimumSteps.forBody target size i st).current.getD q 0
        = st.current.getD q 0) ∧
    (FindMinimumSteps.forBody target size i st).steps = st.steps + (j - i) := by
  have hfind : findTargetPos st.current (target.getD i 0) size (i + 1) = some j :=
    findTargetPos_eq_some (by omega) hj hv (fun q h1 h2 => hleast q (by omega) h2)
  have hfirst : ∀ q, i ≤ q → q < j → st.current.getD q 0 ≠ target.getD i 0 := by
    intro q hq1 hq2
    by_cases hqi : q = i
    · rw [hqi]; exact hne
    · exact hleast q (by omega) hq2
  obtain ⟨pre, A, B, hcur, hpre, hA, hvA⟩ :=
    split_of_first (by omega) (by omega) hv hfirst
  have hAne : A ≠ [] := by
    intro e; rw [e] at hA; simp at hA; omega
  have hbody := forBody_found_split target size pre A B (target.getD i 0) st hcur hvA hAne
    (by rw [hpre]) hlen
  obtain ⟨e1, e2, _⟩ := swapLoop_effect pre _ A B st hcur hvA
  rw [← hbody, hpre] at e1 e2
  refine ⟨forLoop_step target size i st (by omega), hfind, ?_, ?_, ?_, ?_⟩
  · rw [e1, ← hpre]; exact getD_moved_at pre _ _
  · intro q hq1 hq2
    obtain ⟨k, rfl⟩ : ∃ k, q = pre.length + k := ⟨q - pre.length, by omega⟩
    rw [e1, hcur]
    exact getD_moved_mid pre A B _ k (by omega)
  · intro q hq
    rw [e1, hcur]
    rcases hq with hq | hq
    · exact getD_moved_low pre _ _ q (by omega)
    · exact getD_moved_high pre A B _ q (by omega)
  · rw [e2, hA]

theorem FindMinimumSteps_moves_leftmost_witness :
    ({ current := [5, 1, 7, 2, 7], steps := 0, trace := [] } : StepsRun).current.length = 5 ∧
    (0 : Nat) < 2 ∧ (2 : Nat) < 5 ∧
    FindMinimumSteps.forLoop [7, 1, 2, 5, 7] 5 0
        { current := [5, 1, 7, 2, 7], steps := 0, trace := [] }
      = FindMinimumSteps.forLoop [7, 1, 2, 5, 7] 5 (0 + 1)
          (FindMinimumSteps.forBody [7, 1, 2, 5, 7] 5 0
            { current := [5, 1, 7, 2, 7], steps := 0, trace := [] }) ∧
    findTargetPos [5, 1, 7, 2, 7] (([7, 1, 2, 5, 7] : List Int).getD 0 0) 5 (0 + 1) = some 2 ∧
    (FindMinimumSteps.forBody [7, 1, 2, 5, 7] 5 0
      { current := [5, 1, 7, 2, 7], steps := 0, trace := [] }).current.getD 0 0
        = ([7, 1, 2, 5, 7] : List Int).getD 0 0 ∧
    (∀ q, 0 ≤ q → q < 2 →
      (FindMinimumSteps.forBody [7, 1, 2, 5, 7] 5 0
        { current := [5, 1, 7, 2, 7], steps := 0, trace := [] }).current.getD (q + 1) 0
        = ([5, 1, 7, 2, 7] : List Int).getD q 0) ∧
    (∀ q, q < 0 ∨ 2 < q →
      (FindMinimumSteps.forBody [7, 1, 2, 5, 7] 5 0
        { current := [5, 1, 7, 2, 7], steps := 0, trace := [] }).current.getD q 0
        = ([5, 1, 7, 2, 7] : List Int).getD q 0) ∧
    (FindMinimumSteps.forBody [7, 1, 2, 5, 7] 5 0
      { current := [5, 1, 7, 2, 7], steps := 0, trace := [] }).steps = 0 + (2 - 0) :=
  ⟨by decide, by decide, by decide,
    FindMinimumSteps_moves_leftmost [7, 1, 2, 5, 7] 5 0 2
      { current := [5, 1, 7, 2, 7], steps := 0, trace := [] }
      (by decide) (by decide) (by decide) (by decide) (by decide)
      (by intro q h1 h2; interval_cases q; decide)⟩

/-- C16: when `FindMinimumSteps` processes a position `i` with
`current[i] != target[i]` and `target[i]` occurs at no position above `i`, the
working sequence, the step count and the trace stay as they are for that
position and the loop goes on to position `i + 1`; and on `initial = [1,2,3]`,
`target = [9,3,2]`, which are not permutations of each other, the returned
step count is positive (it is 1) while `reachedTarget` is false. -/
theorem FindMinimumSteps_unresolved_position (target : List Int) (size i : Nat)
    (st : StepsRun) (hi : i < size)
    (hne : st.current.getD i 0 ≠ target.getD i 0)
    (hnone : ∀ q, i < q → q < size → st.current.getD q 0 ≠ target.getD i 0) :
    FindMinimumSteps.forBody target size i st = st ∧
    FindMinimumSteps.forLoop target size i st
      = FindMinimumSteps.forLoop target size (i + 1) st ∧
    ¬ ([1, 2, 3] : List Int).Perm [9, 3, 2] ∧
    FindMinimumSteps [1, 2, 3] [9, 3, 2] 3 =
      { steps := 1, trace := [[1, 3, 2]], final := [1, 3, 2], reachedTarget := false } := by
  have hfind : findTargetPos st.current (target.getD i 0) size (i + 1) = none :=
    findTargetPos_eq_none (fun q h1 h2 => hnone q (by omega) h2)
  have hbody : FindMinimumSteps.forBody target size i st = st := by
    rw [FindMinimumSteps.forBody, if_neg hne, hfind]
  refine ⟨hbody, ?_, by decide, ?_⟩
  · rw [forLoop_step target size i st hi, hbody]
  · simp [FindMinimumSteps, FindMinimumSteps.forLoop, findTargetPos, swapLoop, Swap,
      CopyArray, ArraysEqual]

theorem FindMinimumSteps_unresolved_position_witness :
    (0 : Nat) < 3 ∧ ([1, 2, 3] : List Int).getD 0 0 ≠ ([9, 3, 2] : List Int).getD 0 0 ∧
    FindMinimumSteps.forBody [9, 3, 2] 3 0 { current := [1, 2, 3], steps := 0, trace := [] }
      = { current := [1, 2, 3], steps := 0, trace := [] } ∧
    FindMinimumSteps.forLoop [9, 3, 2] 3 0 { current := [1, 2, 3], steps := 0, trace := [] }
      = FindMinimumSteps.forLoop [9, 3, 2] 3 (0 + 1)
          { current := [1, 2, 3], steps := 0, trace := [] } ∧
    ¬ ([1, 2, 3] : List Int).Perm [9, 3, 2] ∧
    FindMinimumSteps [1, 2, 3] [9, 3, 2] 3 =
      { steps := 1, trace := [[1, 3, 2]], final := [1, 3, 2], reachedTarget := false } :=
  ⟨by decide, by decide,
    FindMinimumSteps_unresolved_position [9, 3, 2] 3 0
      { current := [1, 2, 3], steps := 0, trace := [] } (by decide) (by decide)
      (by intro q h1 h2; interval_cases q <;> decide)⟩

/-- C18: for every `initial` of length `size = n` and every `target`, the step
count returned by `FindMinimumSteps` is at most `n*(n-1)/2`, and the steps
added while position `i` is processed are at most `n-1-i`. -/
theorem FindMinimumSteps_steps_bound (initial target : List Int) (size : Nat)
    (hi : initial.length = size) :
    (FindMinimumSteps initial target size).steps ≤ size * (size - 1) / 2 ∧
    (FindMinimumSteps initial target size).steps
      = (FindMinimumSteps.afterPositions target size size
          { current := CopyArray initial size, steps := 0, trace := [] }).steps ∧
    ∀ i, i < size →
      (FindMinimumSteps.afterPositions target size (i + 1)
          { current := CopyArray initial size, steps := 0, trace := [] }).steps
        ≤ (FindMinimumSteps.afterPositions target size i
            { current := CopyArray initial size, steps := 0, trace := [] }).steps
          + (size - 1 - i) := by
  have hlen : ({ current := CopyArray initial size, steps := 0, trace := [] } :
      StepsRun).current.length = size := by
    show (CopyArray initial size).length = size
    rw [CopyArray, List.length_take]; omega
  have hrun : (FindMinimumSteps initial target size).steps
      = (FindMinimumSteps.afterPositions target size size
          { current := CopyArray initial size, steps := 0, trace := [] }).steps := by
    simp only [FindMinimumSteps, forLoop_eq_afterPositions]
  refine ⟨?_, hrun, ?_⟩
  · have h := afterPositions_steps_le target size _ hlen size (Nat.le_refl _)
    rw [hrun]
    simpa using h
  · intro i hlt
    exact afterPositions_steps_succ target size _ hlen i hlt

theorem FindMinimumSteps_steps_bound_witness :
    ([1, 2, 3, 4] : List Int).length = 4 ∧
    (FindMinimumSteps [1, 2, 3, 4] [4, 3, 2, 1] 4).steps ≤ 4 * (4 - 1) / 2 ∧
    (FindMinimumSteps [1, 2, 3, 4] [4, 3, 2, 1] 4).steps
      = (FindMinimumSteps.afterPositions [4, 3, 2, 1] 4 4
          { current := CopyArray [1, 2, 3, 4] 4, steps := 0, trace := [] }).steps ∧
    ∀ i, i < 4 →
      (FindMinimumSteps.afterPositions [4, 3, 2, 1] 4 (i + 1)
          { current := CopyArray [1, 2, 3, 4] 4, steps := 0, trace := [] }).steps
        ≤ (FindMinimumSteps.afterPositions [4, 3, 2, 1] 4 i
            { current := CopyArray [1, 2, 3, 4] 4, steps := 0, trace := [] }).steps
          + (4 - 1 - i) :=
  ⟨by decide, FindMinimumSteps_steps_bound [1, 2, 3, 4] [4, 3, 2, 1] 4 (by decide)⟩

/-- C19: for every `initial` of length `size` and every `target`, each state
in the trace of `FindMinimumSteps` and the final working sequence are
permutations of `initial`: the trace is a chain of exchanges of two adjacent
cells that starts at `initial` and ends in the final working sequence. -/
theorem FindMinimumSteps_states_perm (initial target : List Int) (size : Nat)
    (hi : initial.length = size) :
    (∀ c ∈ (FindMinimumSteps initial target size).trace, c.Perm initial) ∧
    (FindMinimumSteps initial target size).final.Perm initial ∧
    List.Chain (fun a b => AdjacentSwap a b ∧ a ≠ b) initial
      (FindMinimumSteps initial target size).trace := by
  obtain ⟨_, hchain, hlast⟩ := FindMinimumSteps_run initial target size hi
  refine ⟨chain_perm _ _ hchain, ?_, hchain⟩
  rw [← hlast]
  exact SwapsTo_perm (swapsTo_of_chain _ _ hchain)

theorem FindMinimumSteps_states_perm_witness :
    ([1, 2, 3] : List Int).length = 3 ∧
    (∀ c ∈ (FindMinimumSteps [1, 2, 3] [9, 3, 2] 3).trace, c.Perm [1, 2, 3]) ∧
    (FindMinimumSteps [1, 2, 3] [9, 3, 2] 3).final.Perm [1, 2, 3] ∧
    List.Chain (fun a b => AdjacentSwap a b ∧ a ≠ b) [1, 2, 3]
      (FindMinimumSteps [1, 2, 3] [9, 3, 2] 3).trace :=
  ⟨by decide, FindMinimumSteps_states_perm [1, 2, 3] [9, 3, 2] 3 (by decide)⟩

/-- C14: for `initial` and `target` of length `size` that are permutations of
the same multiset, once `FindMinimumSteps` has processed position `i` the
working sequence agrees with `target` on the positions `0 .. i` and keeps
doing so after every later position; the swaps made while position `k` is
processed leave the positions below `k` as they were, so each state printed
then still agrees with `target` on `0 .. i` for every `i < k`. -/
theorem FindMinimumSteps_aligned_positions_kept (initial target : List Int) (size : Nat)
    (hi : initial.length = size) (ht : target.length = size)
    (hperm : initial.Perm target) :
    (FindMinimumSteps initial target size).final
      = (FindMinimumSteps.afterPositions target size size
          { current := CopyArray initial size, steps := 0, trace := [] }).current ∧
    (∀ i k, i < k → k ≤ size →
      (FindMinimumSteps.afterPositions target size k
          { current := CopyArray initial size, steps := 0, trace := [] }).current.take (i + 1)
        = target.take (i + 1)) ∧
    (∀ k, k < size → ∃ tr,
      (FindMinimumSteps.afterPositions target size (k + 1)
          { current := CopyArray initial size, steps := 0, trace := [] }).trace
        = (FindMinimumSteps.afterPositions target size k
            { current := CopyArray initial size, steps := 0, trace := [] }).trace ++ tr ∧
      ∀ c ∈ tr,
        c.take k = (FindMinimumSteps.afterPositions target size k
          { current := CopyArray initial size, steps := 0, trace := [] }).current.take k ∧
        ∀ i, i < k → c.take (i + 1) = target.take (i + 1)) := by
  have hlen0 : ({ current := CopyArray initial size, steps := 0, trace := [] } :
      StepsRun).current.length = size := by
    show (CopyArray initial size).length = size
    rw [CopyArray, List.length_take]; omega
  have htake : ∀ (i k : Nat) (suf : List Int), i < k → k ≤ size →
      (target.take k ++ suf).take (i + 1) = target.take (i + 1) := by
    intro i k suf hik hk
    rw [List.take_append_of_le_length (by rw [List.length_take]; omega), List.take_take,
      Nat.min_eq_left (by omega)]
  refine ⟨?_, ?_, ?_⟩
  · simp only [FindMinimumSteps, forLoop_eq_afterPositions]
  · intro i k hik hk
    obtain ⟨suf, hcur, _⟩ := afterPositions_aligned initial target size hi ht hperm k hk
    rw [hcur]
    exact htake i k suf hik hk
  · intro k hk
    obtain ⟨suf, hcur, _⟩ :=
      afterPositions_aligned initial target size hi ht hperm k (by omega)
    obtain ⟨tr, h1, _, _, _, _, _, h7⟩ := forBody_effect target size k
      (FindMinimumSteps.afterPositions target size k
        { current := CopyArray initial size, steps := 0, trace := [] })
      (afterPositions_length target size _ hlen0 k (by omega)) hk
    refine ⟨tr, h1, ?_⟩
    intro c hc
    refine ⟨h7 c hc, ?_⟩
    intro i hik
    have hck := h7 c hc
    rw [hcur] at hck
    have := congrArg (List.take (i + 1)) hck
    rw [List.take_take, List.take_take, Nat.min_eq_left (by omega), htake i k suf hik (by omega)]
      at this
    exact this

theorem FindMinimumSteps_aligned_positions_kept_witness :
    ([3, 1, 3, 2] : List Int).length = 4 ∧ ([3, 3, 2, 1] : List Int).length = 4 ∧
    ([3, 1, 3, 2] : List Int).Perm [3, 3, 2, 1] ∧
    (FindMinimumSteps [3, 1, 3, 2] [3, 3, 2, 1] 4).final
      = (FindMinimumSteps.afterPositions [3, 3, 2, 1] 4 4
          { current := CopyArray [3, 1, 3, 2] 4, steps := 0, trace := [] }).current ∧
    (∀ i k, i < k → k ≤ 4 →
      (FindMinimumSteps.afterPositions [3, 3, 2, 1] 4 k
          { current := CopyArray [3, 1, 3, 2] 4, steps := 0, trace := [] }).current.take (i + 1)
        = ([3, 3, 2, 1] : List Int).take (i + 1)) ∧
    (∀ k, k < 4 → ∃ tr,
      (FindMinimumSteps.afterPositions [3, 3, 2, 1] 4 (k + 1)
          { current := CopyArray [3, 1, 3, 2] 4, steps := 0, trace := [] }).trace
        = (FindMinimumSteps.afterPositions [3, 3, 2, 1] 4 k
            { current := CopyArray [3, 1, 3, 2] 4, steps := 0, trace := [] }).trace ++ tr ∧
      ∀ c ∈ tr,
        c.take k = (FindMinimumSteps.afterPositions [3, 3, 2, 1] 4 k
          { current := CopyArray [3, 1, 3, 2] 4, steps := 0, trace := [] }).current.take k ∧
        ∀ i, i < k → c.take (i + 1) = ([3, 3, 2, 1] : List Int).take (i + 1)) :=
  ⟨by decide, by decide, by decide,
    FindMinimumSteps_aligned_positions_kept [3, 1, 3, 2] [3, 3, 2, 1] 4
      (by decide) (by decide) (by decide)⟩

/-- C20, as the code has it: for `0 <= index <= r` and `0 <= start <= n`, on a
buffer of `r` cells and with `*count + C(n - start, r - index)` within the
range of `int`, one call of `GenerateCombinationsRecursive` with these `index`
and `start` increases the count by exactly `C(n - start, r - index)`, emits
that many combinations, and every combination it emits (as well as the buffer
it leaves) keeps the buffer entries `combination[0 .. index-1]` set by its
callers. -/
theorem GenerateCombinationsRecursive_count_and_placed_cells (elements : List Int) (n : Nat)
    (r : Int) (index start : Nat) (st : CombinationRun)
    (hn : elements.length = n) (hir : (index : Int) ≤ r) (hs : start ≤ n)
    (hbuf : st.combination.length = r.toNat)
    (hlo : -2147483648 ≤ st.count)
    (hfit : st.count + (Nat.choose (n - start) (r.toNat - index) : Int) ≤ 2147483647) :
    (GenerateCombinationsRecursive elements n r index start st).count
      = st.count + (Nat.choose (n - start) (r.toNat - index) : Int) ∧
    (GenerateCombinationsRecursive elements n r index start st).combination.take index
      = st.combination.take index ∧
    ∃ new, (GenerateCombinationsRecursive elements n r index start st).emitted
        = st.emitted ++ new ∧
      new.length = Nat.choose (n - start) (r.toNat - index) ∧
      ∀ c ∈ new, c.take index = st.combination.take index := by
  obtain ⟨h1, h2, _, h4⟩ := recursive_effect elements n r index start st hir hbuf
  have hlen : (selections (r.toNat - index) (List.range' start (n - start))).length
      = Nat.choose (n - start) (r.toNat - index) := by
    rw [selections_length, List.length_range']
  refine ⟨by rw [h1, hlen, countAfter_of_fits _ _ hlo hfit], h4, _, h2,
    by rw [List.length_map, hlen], ?_⟩
  intro c hc
  rw [List.mem_map] at hc
  obtain ⟨t, _, rfl⟩ := hc
  rw [List.take_append_of_le_length (by rw [List.length_take]; omega), List.take_take,
    Nat.min_self]

theorem GenerateCombinationsRecursive_count_and_placed_cells_witness :
    ([1, 2, 3, 4] : List Int).length = 4 ∧ ((1 : Nat) : Int) ≤ 3 ∧ (1 : Nat) ≤ 4 ∧
    (GenerateCombinationsRecursive [1, 2, 3, 4] 4 3 1 1
        { combination := [1, 0, 0], count := 0, emitted := [] }).count
      = 0 + (Nat.choose (4 - 1) ((3 : Int).toNat - 1) : Int) ∧
    (GenerateCombinationsRecursive [1, 2, 3, 4] 4 3 1 1
        { combination := [1, 0, 0], count := 0, emitted := [] }).combination.take 1
      = ([1, 0, 0] : List Int).take 1 ∧
    ∃ new, (GenerateCombinationsRecursive [1, 2, 3, 4] 4 3 1 1
          { combination := [1, 0, 0], count := 0, emitted := [] }).emitted
        = [] ++ new ∧
      new.length = Nat.choose (4 - 1) ((3 : Int).toNat - 1) ∧
      ∀ c ∈ new, c.take 1 = ([1, 0, 0] : List Int).take 1 :=
  ⟨by decide, by decide, by decide,
    GenerateCombinationsRecursive_count_and_placed_cells [1, 2, 3, 4] 4 3 1 1
      { combination := [1, 0, 0], count := 0, emitted := [] }
      (by decide) (by decide) (by decide) (by decide) (by decide) (by decide)⟩

/-- C20 as stated fails: the call that `GenerateCombinations` makes for the
source `1, 2, ..., 34` and `r = 17` (`index = 0`, `start = 0`, `*count = 0`, a
buffer of 17 cells) leaves `*count = -1961361076`, which is not
`0 + C(34, 17)`. -/
theorem GenerateCombinationsRecursive_count_overflow :
    ([1, 2, 3, 4, 5, 6, 7, 8, 9, 10, 11, 12, 13, 14, 15, 16, 17, 18, 19, 20, 21, 22,
      23, 24, 25, 26, 27, 28, 29, 30, 31, 32, 33, 34] : List Int).length = 34 ∧ ((0 : Nat) : Int) ≤ 17 ∧ (0 : Nat) ≤ 34 ∧
    (GenerateCombinationsRecursive
        [1, 2, 3, 4, 5, 6, 7, 8, 9, 10, 11, 12, 13, 14, 15, 16, 17, 18, 19, 20, 21, 22,
      23, 24, 25, 26, 27, 28, 29, 30, 31, 32, 33, 34] 34 17 0 0
        { combination := List.replicate 17 0, count := 0, emitted := [] }).count
      = -1961361076 ∧
    (GenerateCombinationsRecursive
        [1, 2, 3, 4, 5, 6, 7, 8, 9, 10, 11, 12, 13, 14, 15, 16, 17, 18, 19, 20, 21, 22,
      23, 24, 25, 26, 27, 28, 29, 30, 31, 32, 33, 34] 34 17 0 0
        { combination := List.replicate 17 0, count := 0, emitted := [] }).count
      ≠ 0 + (Nat.choose (34 - 0) ((17 : Int).toNat - 0) : Int) := by
  have hE := recursive_effect
    [1, 2, 3, 4, 5, 6, 7, 8, 9, 10, 11, 12, 13, 14, 15, 16, 17, 18, 19, 20, 21, 22,
      23, 24, 25, 26, 27, 28, 29, 30, 31, 32, 33, 34] 34 17 0 0
    { combination := List.replicate 17 0, count := 0, emitted := [] }
    (by decide) (by decide)
  have hlen : (selections ((17 : Int).toNat - 0) (List.range' 0 (34 - 0))).length
      = 2333606219 + 1 := by
    rw [selections_length, List.length_range']
    exact choose_34_17
  have hcount := hE.1
  rw [hlen, countAfter_eq_wrap] at hcount
  have hval : (GenerateCombinationsRecursive
        [1, 2, 3, 4, 5, 6, 7, 8, 9, 10, 11, 12, 13, 14, 15, 16, 17, 18, 19, 20, 21, 22,
      23, 24, 25, 26, 27, 28, 29, 30, 31, 32, 33, 34] 34 17 0 0
        { combination := List.replicate 17 0, count := 0, emitted := [] }).count
      = -1961361076 := by
    rw [hcount]
    norm_num [wrapInt32]
  refine ⟨by decide, by decide, by decide, hval, ?_⟩
  rw [hval, show (34 - 0 : Nat) = 34 from rfl, show (17 : Int).toNat - 0 = 17 from rfl,
    choose_34_17]
  decide

end PermutationGenerator
